import Mathlib

/-!
Verification of the lessons-learned repository's two core algorithms:
the JSON recovery parser of `src/backend/lessons/ai.py`
(`_parse_json_response`) and the spreadsheet importer of
`src/backend/lessons/parsers.py` (`find_col`, `map_discipline`,
`map_severity`, `parse_xlsx`, `parse_csv`).

Python strings are embedded as `List Char` (`Str`).  Python's `json.loads`
is an external library call; it is modelled here by an executable JSON
parser (`json_loads`) covering objects, arrays, strings with the common
escapes, integers, booleans and null; floats, `\u` escapes and the
NaN/Infinity extensions are outside the model, and every concrete text the
theorems touch stays inside the modelled fragment.
-/

namespace S2P

abbrev Str := List Char

/-- Whitespace accepted by the JSON scanner (space, tab, newline, CR). -/
def jws (c : Char) : Bool := c == ' ' || c == '\t' || c == '\n' || c == '\r'

/-- Whitespace stripped by Python's `str.strip` (JSON whitespace plus
vertical tab and form feed). -/
def pyws (c : Char) : Bool := jws c || c == Char.ofNat 11 || c == Char.ofNat 12

/-- The backtick character, written by code point to keep it out of literals. -/
def btick : Char := Char.ofNat 96

/-- Python `str.lstrip()`. -/
def pyLstrip (s : Str) : Str := s.dropWhile pyws

/-- Python `str.rstrip()`. -/
def pyRstrip (s : Str) : Str := (s.reverse.dropWhile pyws).reverse

/-- Python `str.strip()`. -/
def pyStrip (s : Str) : Str := pyLstrip (pyRstrip s)

/-- Python `str.rstrip(",")`: remove every trailing comma. -/
def rstripComma (s : Str) : Str := (s.reverse.dropWhile (· == ',')).reverse

/-- Python `str.replace(pat, rep)`: left-to-right, non-overlapping. -/
def pyReplace (pat rep : Str) : Str → Str
  | [] => []
  | c :: rest =>
    if h : pat ≠ [] ∧ pat.isPrefixOf (c :: rest) then
      rep ++ pyReplace pat rep ((c :: rest).drop pat.length)
    else
      c :: pyReplace pat rep rest
termination_by s => s.length
decreasing_by
  · have hp : 1 ≤ pat.length := by
      cases pat with
      | nil => exact absurd rfl h.1
      | cons a t => simp
    simp only [List.length_drop, List.length_cons]
    omega
  · simp

/-- Python `needle in hay` on strings: substring containment. -/
def isSub : Str → Str → Bool
  | n, [] => n.isEmpty
  | n, c :: rest => n.isPrefixOf (c :: rest) || isSub n rest

/-- Python `str.rfind(c)` restricted to one character, as an `Option`:
the greatest index holding `c`, if any. -/
def rlast (c : Char) : Str → Option Nat
  | [] => none
  | a :: rest =>
    match rlast c rest with
    | some i => some (i + 1)
    | none => if a == c then some 0 else none

/-- Python `s.startswith(c)` for a single character. -/
def startsW (s : Str) (c : Char) : Bool :=
  match s with
  | [] => false
  | a :: _ => a == c

/-! ## The JSON value model (the shape `json.loads` returns) -/

mutual
inductive Json where
  | null : Json
  | bool (b : Bool) : Json
  | num (n : Int) : Json
  | str (s : Str) : Json
  | arr (items : JsonList) : Json
  | obj (members : JsonKVs) : Json

inductive JsonList where
  | nil : JsonList
  | cons (hd : Json) (tl : JsonList) : JsonList

inductive JsonKVs where
  | nil : JsonKVs
  | cons (key : Str) (val : Json) (tl : JsonKVs) : JsonKVs
end

/-- Decimal digits of a natural number. -/
def serNat (n : Nat) : Str :=
  if h : n < 10 then [Char.ofNat (48 + n)]
  else serNat (n / 10) ++ [Char.ofNat (48 + n % 10)]
termination_by n
decreasing_by
  exact Nat.div_lt_self (by omega) (by omega)

/-- Decimal rendering of an integer. -/
def serInt : Int → Str
  | .ofNat n => serNat n
  | .negSucc m => '-' :: serNat (m + 1)

mutual
/-- Canonical compact serialization of a JSON value (no added spaces),
used to build the concrete and parametric texts the theorems feed to the
recovery parser. -/
def serVal : Json → Str
  | .str s => '"' :: s ++ ['"']
  | .null => ['n', 'u', 'l', 'l']
  | .arr l => '[' :: serList l ++ [']']
  | .bool true => ['t', 'r', 'u', 'e']
  | .obj m => '{' :: serKVs m ++ ['}']
  | .bool false => ['f', 'a', 'l', 's', 'e']
  | .num i => serInt i

/-- Comma-joined serialization of array items. -/
def serList : JsonList → Str
  | .nil => []
  | .cons v .nil => serVal v
  | .cons v (.cons w t) => serVal v ++ ',' :: serList (.cons w t)

/-- Comma-joined serialization of object members. -/
def serKVs : JsonKVs → Str
  | .nil => []
  | .cons k v .nil => '"' :: k ++ '"' :: ':' :: serVal v
  | .cons k v (.cons k2 v2 t) =>
    ('"' :: k ++ '"' :: ':' :: serVal v) ++ ',' :: serKVs (.cons k2 v2 t)
end

/-- The serialized continuation after an object's first member: empty
for the last member, a comma and the remaining members otherwise. -/
def serKVsTail : JsonKVs → Str
  | .nil => []
  | .cons k v t => ',' :: serKVs (.cons k v t)

mutual
/-- Fuel needed by the parser for a value: nesting depth combined with
the item counts of the traversed containers. -/
def jsize : Json → Nat
  | .null => 1
  | .bool _ => 1
  | .num _ => 1
  | .str _ => 1
  | .arr l => jsizeL l + 1
  | .obj m => jsizeK m + 1

def jsizeL : JsonList → Nat
  | .nil => 0
  | .cons v t => max (jsize v) (jsizeL t) + 1

def jsizeK : JsonKVs → Nat
  | .nil => 0
  | .cons _ v t => max (jsize v) (jsizeK t) + 1
end

/-- Characters that sit in a JSON string literal with no escaping and no
interference with the fence-stripping step: not a quote, not a backslash,
not a control character, not a backtick. -/
def goodStrChar (c : Char) : Bool :=
  !(c == '"') && !(c == '\\') && decide (32 ≤ c.toNat) && !(c == btick)

/-- All characters of the string are plain. -/
def goodStr (s : Str) : Bool := s.all goodStrChar

mutual
/-- JSON values whose strings (keys and string values) are plain, so that
the canonical serialization parses back and survives fence stripping. -/
def jsonSafe : Json → Bool
  | .null => true
  | .bool _ => true
  | .num _ => true
  | .str s => goodStr s
  | .arr l => jsonSafeL l
  | .obj m => jsonSafeK m

def jsonSafeL : JsonList → Bool
  | .nil => true
  | .cons v t => jsonSafe v && jsonSafeL t

def jsonSafeK : JsonKVs → Bool
  | .nil => true
  | .cons k v t => goodStr k && jsonSafe v && jsonSafeK t
end

/-! ## The JSON parser (model of `json.loads`) -/

/-- Skip JSON whitespace. -/
def skipWs (s : Str) : Str := s.dropWhile jws

/-- JSON string escapes (without `\u`, outside the model). -/
def escMap : Char → Option Char
  | 'n' => some '\n'
  | 't' => some '\t'
  | 'r' => some '\r'
  | 'b' => some (Char.ofNat 8)
  | 'f' => some (Char.ofNat 12)
  | '/' => some '/'
  | '"' => some '"'
  | '\\' => some '\\'
  | _ => none

/-- Parse the body of a string literal, the opening quote already
consumed; strict about raw control characters, as `json.loads` is. -/
def parseStr : Str → Option (Str × Str)
  | [] => none
  | c :: rest =>
    if c == '"' then some ([], rest)
    else if c == '\\' then
      match rest with
      | [] => none
      | e :: rest2 =>
        match escMap e with
        | some d => (parseStr rest2).map (fun x => (d :: x.1, x.2))
        | none => none
    else if c.toNat < 32 then none
    else (parseStr rest).map (fun x => (c :: x.1, x.2))

/-- Numeric value of a digit character. -/
def digitVal (c : Char) : Nat := c.toNat - 48

/-- After a leading `0`, a further digit (leading zero) or a fractional
or exponent marker makes the token invalid in the model. -/
def blocksZero (r : Str) : Bool :=
  match r with
  | [] => false
  | d :: _ => d.isDigit || d == '.' || d == 'e' || d == 'E'

/-- After a digit run, a fractional or exponent marker leaves the
modelled integer fragment. -/
def blocksNum (r : Str) : Bool :=
  match r with
  | [] => false
  | x :: _ => x == '.' || x == 'e' || x == 'E'

/-- Parse an unsigned JSON integer (leading zeros refused; a fractional
or exponent part is outside the model and refused). -/
def parseUInt (s : Str) : Option (Nat × Str) :=
  match s with
  | [] => none
  | c :: rest =>
    if c == '0' then
      if blocksZero rest then none else some (0, rest)
    else if c.isDigit then
      let ds := (c :: rest).takeWhile Char.isDigit
      let r := (c :: rest).dropWhile Char.isDigit
      if blocksNum r then none
      else some (ds.foldl (fun a d => a * 10 + digitVal d) 0, r)
    else none

/-- Parse a signed JSON integer token. -/
def parseIntTok (s : Str) : Option (Int × Str) :=
  match s with
  | [] => none
  | c :: rest =>
    if c == '-' then (parseUInt rest).map (fun x => (-(x.1 : Int), x.2))
    else (parseUInt (c :: rest)).map (fun x => ((x.1 : Int), x.2))

/-- Parse the items of a non-empty array, given a value parser `pv`;
`n` is fuel for the item count. -/
def parseItems (pv : Str → Option (Json × Str)) : Nat → Str → Option (JsonList × Str)
  | 0, _ => none
  | n + 1, s =>
    match pv s with
    | some (v, r) =>
      match skipWs r with
      | ',' :: r2 => (parseItems pv n r2).map (fun x => (.cons v x.1, x.2))
      | ']' :: r2 => some (.cons v .nil, r2)
      | _ => none
    | none => none

/-- Parse the members of a non-empty object, given a value parser `pv`. -/
def parsePairs (pv : Str → Option (Json × Str)) : Nat → Str → Option (JsonKVs × Str)
  | 0, _ => none
  | n + 1, s =>
    match skipWs s with
    | '"' :: kr =>
      match parseStr kr with
      | some (k, r1) =>
        match skipWs r1 with
        | ':' :: r2 =>
          match pv r2 with
          | some (v, r3) =>
            match skipWs r3 with
            | ',' :: r4 => (parsePairs pv n r4).map (fun x => (.cons k v x.1, x.2))
            | '}' :: r4 => some (.cons k v .nil, r4)
            | _ => none
          | none => none
        | _ => none
      | none => none
    | _ => none

/-- Parse one JSON value, fuel-bounded. -/
def parseV : Nat → Str → Option (Json × Str)
  | 0, _ => none
  | n + 1, s =>
    match skipWs s with
    | [] => none
    | c :: r =>
      if c == '{' then
        match skipWs r with
        | '}' :: r2 => some (.obj .nil, r2)
        | _ => (parsePairs (parseV n) n r).map (fun x => (Json.obj x.1, x.2))
      else if c == '[' then
        match skipWs r with
        | ']' :: r2 => some (.arr .nil, r2)
        | _ => (parseItems (parseV n) n r).map (fun x => (Json.arr x.1, x.2))
      else if c == '"' then
        (parseStr r).map (fun x => (Json.str x.1, x.2))
      else if c == 't' then
        if ['r', 'u', 'e'].isPrefixOf r then some (.bool true, r.drop 3) else none
      else if c == 'f' then
        if ['a', 'l', 's', 'e'].isPrefixOf r then some (.bool false, r.drop 4) else none
      else if c == 'n' then
        if ['u', 'l', 'l'].isPrefixOf r then some (.null, r.drop 3) else none
      else
        (parseIntTok (c :: r)).map (fun x => (Json.num x.1, x.2))

/-- Model of Python's `json.loads`: parse one value and require only
whitespace after it; `none` models a raised `json.JSONDecodeError`. -/
def json_loads (s : Str) : Option Json :=
  match parseV (s.length + 1) s with
  | some (v, rest) => if (skipWs rest).isEmpty then some v else none
  | none => none

example : json_loads ['n', 'u', 'l', 'l'] = some .null := by rfl

example :
    json_loads ['{', '"', 'a', '"', ':', ' ', '1', '}'] =
      some (.obj (.cons ['a'] (.num 1) .nil)) := by rfl

example :
    json_loads ['[', '1', ',', ' ', '2', '0', ']'] =
      some (.arr (.cons (.num 1) (.cons (.num 20) .nil))) := by rfl

example : json_loads ['{', '"', 'a', '"', ':', '1'] = none := by rfl

example : serVal (.obj (.cons ['a'] (.num 1) .nil)) = ['{', '"', 'a', '"', ':', '1', '}'] := by
  simp [serVal, serKVs, serInt, serNat]

/-! ## The JSON recovery parser (`_parse_json_response`, ai.py lines 50-117) -/

/-- An index returned by `rlast` is inside the list. -/
theorem rlast_lt {c : Char} : ∀ {s : Str} {i : Nat}, rlast c s = some i → i < s.length := by
  intro s
  induction s with
  | nil => intro i h; simp [rlast] at h
  | cons a rest ih =>
    intro i h
    simp only [rlast] at h
    cases hr : rlast c rest with
    | some j =>
      rw [hr] at h
      cases h
      have := ih hr
      simp
      omega
    | none =>
      rw [hr] at h
      by_cases ha : a == c
      · simp [ha] at h
        cases h
        simp
      · simp [ha] at h

/-- The triple-backtick fence marker. -/
def fence3 : Str := [btick, btick, btick]

/-- The fence marker with the `json` language tag. -/
def fenceJson7 : Str := fence3 ++ ['j', 's', 'o', 'n']

/-- The quoted key `"risks"` looked for by the repair (ai.py line 62). -/
def risksPat : Str := '"' :: ['r', 'i', 's', 'k', 's'] ++ ['"']

/-- The fixed failure message (ai.py line 117). -/
def errMsg : Str := "Analysis response was truncated. Please try again.".toList

/-- The failure-marker object returned when repair fails (ai.py line 117). -/
def errMarker : Json := .obj (.cons "error".toList (.str errMsg) .nil)

/-- Backward walk of ai.py lines 78-93: starting from the last closing
brace, truncate there, append the minimal closing sequence and test the
parse, stepping to the previous closing brace on failure.  Returns the
accepted repaired text; `none` models falling out of the loop. -/
def walkBack (r : Str) (pos : Nat) : Option Str :=
  if pos = 0 then none
  else
    let cand := rstripComma (pyRstrip (r.take (pos + 1))) ++ [']', '}']
    if (json_loads cand).isSome then some cand
    else
      match h : rlast '}' (r.take pos) with
      | none => none
      | some p => walkBack r p
termination_by pos
decreasing_by
  have hlt := rlast_lt h
  have : (r.take pos).length ≤ pos := by simp
  omega

/-- The `"risks"`-array repair step, ai.py lines 62-93: applies only when
the text mentions `"risks"`, has a closing brace past position 0, and the
tail after the last closing brace looks like a truncated element. -/
def riskRepairStep (r : Str) : Option Str :=
  if isSub risksPat r then
    match rlast '}' r with
    | some lc =>
      if 0 < lc then
        let afterLast := r.drop (lc + 1)
        if afterLast.count '"' % 2 ≠ 0 ∨
            (pyStrip (rstripComma (pyStrip afterLast)) ≠ [] ∧
              startsW (pyStrip afterLast) ']' = false ∧
              startsW (pyStrip afterLast) '}' = false) then
          walkBack r lc
        else none
      else none
    | none => none
  else none

/-- Closing-bracket stack of ai.py lines 103-110: push the matching
closer for `{` and `[`, pop (if possible) on `}` and `]`.  The head of
the accumulator is the innermost open bracket, so the final accumulator
read front-to-back is exactly Python's `reversed(stack)`. -/
def closeStackAux : Str → List Char → List Char
  | [], st => st
  | c :: rest, st =>
    if c == '{' then closeStackAux rest ('}' :: st)
    else if c == '[' then closeStackAux rest (']' :: st)
    else if c == '}' || c == ']' then
      match st with
      | [] => closeStackAux rest []
      | _ :: t => closeStackAux rest t
    else closeStackAux rest st

/-- The closing characters appended by the generic repair. -/
def closeStack (s : Str) : Str := closeStackAux s []

/-- Generic bracket-closing repair, ai.py lines 97-117: close a dangling
string if the quote count is odd, drop trailing whitespace and commas,
append the closers for all still-open brackets, and re-parse; on failure
return the failure marker. -/
def finishRepair (r : Str) : Json :=
  let r1 := if r.count '"' % 2 ≠ 0 then r ++ ['"'] else r
  let r2 := rstripComma (pyRstrip r1)
  let r3 := r2 ++ closeStack r2
  match json_loads r3 with
  | some v => v
  | none => errMarker

/-- Model of `_parse_json_response` (ai.py lines 50-117): strip fence
markers, try a strict parse, then the `"risks"` walk-back repair, then
the generic bracket-closing repair, and finally return the failure
marker.  Total by construction: it never raises and never returns a
missing value. -/
def parse_json_response (text : Str) : Json :=
  let clean := pyStrip (pyReplace fence3 [] (pyReplace fenceJson7 [] text))
  match json_loads clean with
  | some v => v
  | none =>
    match riskRepairStep clean with
    | some cand =>
      match json_loads cand with
      | some v => v
      | none => finishRepair cand
    | none => finishRepair clean

example :
    parse_json_response ['{', '"', 'a', '"', ':', ' ', '1', '}'] =
      .obj (.cons ['a'] (.num 1) .nil) := by
  simp [parse_json_response, pyReplace, fenceJson7, fence3, btick, pyStrip, pyLstrip, pyRstrip]
  rfl

/-! ## The spreadsheet importer (parsers.py) -/

/-- Model of `cell_str` (parsers.py lines 67-74): trim, and normalize the
placeholder renderings none/nan/nat (case-insensitively) to empty.  The
Python `None` cell renders as the string `None` and is caught by the same
check, so cells are modelled as strings. -/
def cell_str (v : Str) : Str :=
  let s := pyStrip v
  let low := s.map Char.toLower
  if low = "none".toList ∨ low = "nan".toList ∨ low = "nat".toList then [] else s

/-- Model of `find_col` (parsers.py lines 58-64): for each candidate term
in order, scan the headers left to right and return the first index whose
header contains the term as a substring; `-1` when no term matches. -/
def find_col (headers : List Str) : List Str → Int
  | [] => -1
  | t :: ts =>
    match headers.findIdx? (fun h => isSub t h) with
    | some i => (i : Int)
    | none => find_col headers ts

/-- The ordered keyword-to-discipline list (parsers.py lines 10-27);
Python dict insertion order drives the scan, so the model is an ordered
association list. -/
def DISCIPLINE_MAP : List (Str × Str) :=
  [("weld".toList, "Welding".toList),
   ("coat".toList, "Coatings".toList),
   ("nde".toList, "NDE".toList),
   ("ndt".toList, "NDE".toList),
   ("inspect".toList, "NDE".toList),
   ("environment".toList, "Environmental".toList),
   ("safety".toList, "Safety".toList),
   ("civil".toList, "Civil".toList),
   ("mechanical".toList, "Mechanical".toList),
   ("electric".toList, "Electrical".toList),
   ("procur".toList, "Materials/Procurement".toList),
   ("project".toList, "Project Controls".toList),
   ("manage".toList, "Project Controls".toList),
   ("survey".toList, "Civil".toList),
   ("quality".toList, "Quality".toList),
   ("regulat".toList, "Regulatory".toList)]

/-- The ordered severity keyword lists (parsers.py lines 29-33). -/
def SEVERITY_KEYWORDS : List (Str × List Str) :=
  [("Critical".toList,
    ["critical".toList, "safety".toList, "injury".toList, "fatality".toList,
     "catastroph".toList]),
   ("High".toList,
    ["week".toList, "month".toList, "significant".toList, "$".toList,
     "major".toList, "substantial".toList]),
   ("Medium".toList,
    ["delay".toList, "rework".toList, "slow".toList, "moderate".toList,
     "minor cost".toList])]

/-- First keyword hit in an ordered keyword-to-result list. -/
def scanKeyword : List (Str × Str) → Str → Str
  | [], _ => []
  | (k, d) :: rest, lower => if isSub k lower then d else scanKeyword rest lower

/-- Model of `map_discipline` (parsers.py lines 36-44). -/
def map_discipline (raw : Str) : Str :=
  if raw = [] then [] else scanKeyword DISCIPLINE_MAP (raw.map Char.toLower)

/-- First severity whose keyword list has a substring hit. -/
def scanSeverity : List (Str × List Str) → Str → Str
  | [], _ => "Medium".toList
  | (sev, kws) :: rest, lower =>
    if kws.any (fun k => isSub k lower) then sev else scanSeverity rest lower

/-- Model of `map_severity` (parsers.py lines 47-55). -/
def map_severity (impact_text : Str) : Str :=
  if impact_text = [] then "Medium".toList
  else scanSeverity SEVERITY_KEYWORDS (impact_text.map Char.toLower)

/-- The record emitted per row by `parse_xlsx` (parsers.py lines 168-186). -/
structure LessonX where
  title : Str
  description : Str
  root_cause : Str
  recommendation : Str
  impact : Str
  work_type : Str
  phase : Str
  discipline : Str
  severity : Str
  environment : Str
  project : Str
  location : Str
  keywords : Str
  logged_by : Str
  status : Str
  assigned_to : Str
  supporting_docs : Str

/-- The record emitted per row by `parse_csv` (parsers.py lines 245-258). -/
structure LessonC where
  title : Str
  description : Str
  root_cause : Str
  recommendation : Str
  impact : Str
  work_type : Str
  phase : Str
  discipline : Str
  severity : Str
  project : Str
  location : Str
  keywords : Str

/-- The XLSX header map (parsers.py lines 103-122), an association list
from canonical field name to column index. -/
def colMapXlsx (hs : List Str) : List (String × Int) :=
  [("id", find_col hs ["ll #".toList, "ll#".toList, "id".toList, "number".toList]),
   ("date", find_col hs ["date logged".toList, "date".toList]),
   ("project", find_col hs ["project name".toList, "project".toList]),
   ("region", find_col hs ["region".toList, "location".toList]),
   ("discipline", find_col hs ["discipline".toList]),
   ("category", find_col hs ["category".toList]),
   ("phase", find_col hs ["phase".toList, "milestone".toList]),
   ("logged_by", find_col hs ["logged by".toList, "author".toList]),
   ("context", find_col hs ["situation".toList, "context".toList]),
   ("what_happened", find_col hs ["what happened".toList, "event".toList, "description".toList]),
   ("impact", find_col hs ["impact".toList, "consequence".toList]),
   ("root_cause", find_col hs ["root cause".toList]),
   ("worked_didnt", find_col hs ["what worked".toList, "worked/didn".toList]),
   ("recommendation", find_col hs ["recommendation".toList, "action".toList]),
   ("keywords", find_col hs ["keyword".toList, "tag".toList]),
   ("status", find_col hs ["status".toList]),
   ("assigned_to", find_col hs ["assigned to".toList]),
   ("docs", find_col hs ["supporting doc".toList, "document".toList])]

/-- The CSV header map (parsers.py lines 203-219): the same fields minus
`worked_didnt`, `assigned_to` and `docs`. -/
def colMapCsv (hs : List Str) : List (String × Int) :=
  [("id", find_col hs ["ll #".toList, "ll#".toList, "id".toList, "number".toList]),
   ("date", find_col hs ["date logged".toList, "date".toList]),
   ("project", find_col hs ["project name".toList, "project".toList]),
   ("region", find_col hs ["region".toList, "location".toList]),
   ("discipline", find_col hs ["discipline".toList]),
   ("category", find_col hs ["category".toList]),
   ("phase", find_col hs ["phase".toList, "milestone".toList]),
   ("logged_by", find_col hs ["logged by".toList, "author".toList]),
   ("context", find_col hs ["situation".toList, "context".toList]),
   ("what_happened", find_col hs ["what happened".toList, "event".toList, "description".toList]),
   ("impact", find_col hs ["impact".toList, "consequence".toList]),
   ("root_cause", find_col hs ["root cause".toList]),
   ("recommendation", find_col hs ["recommendation".toList, "action".toList]),
   ("keywords", find_col hs ["keyword".toList, "tag".toList]),
   ("status", find_col hs ["status".toList])]

/-- The per-row accessor of `parse_xlsx` (parsers.py lines 124-128): out
of range or unresolved columns yield the empty string, in-range cells go
through `cell_str`. -/
def getXlsx (cm : List (String × Int)) (row : List Str) (key : String) : Str :=
  let idx := (cm.lookup key).getD (-1)
  if idx < 0 ∨ (row.length : Int) ≤ idx then []
  else cell_str (row.getD idx.toNat [])

/-- The per-row accessor of `parse_csv` (parsers.py lines 221-225): like
the XLSX one but the cell is only trimmed, not `cell_str`-normalized. -/
def getCsv (cm : List (String × Int)) (row : List Str) (key : String) : Str :=
  let idx := (cm.lookup key).getD (-1)
  if idx < 0 ∨ (row.length : Int) ≤ idx then []
  else pyStrip (row.getD idx.toNat [])

/-- Python `", ".join(...)`. -/
def joinCommaSpace (l : List Str) : Str := List.intercalate ", ".toList l

/-- One data row of `parse_xlsx` (parsers.py lines 131-186); `none`
models `continue`. -/
def xlsxRow (cm : List (String × Int)) (row : List Str) : Option LessonX :=
  let context := getXlsx cm row "context"
  let wh := getXlsx cm row "what_happened"
  if context = [] ∧ wh = [] then none
  else
    let d1 := context
    let d2 :=
      if wh ≠ [] ∧ wh ≠ context then
        (if d1 ≠ [] then d1 ++ "\n\nWhat happened: ".toList ++ wh else wh)
      else d1
    let worked := getXlsx cm row "worked_didnt"
    let d3 := if worked ≠ [] then d2 ++ "\n\n".toList ++ worked else d2
    let t1 := pyStrip (((context.takeWhile (· != '.')).takeWhile (· != '!')).takeWhile (· != '\n'))
    let t2 := if 100 < t1.length then t1.take 97 ++ "...".toList else t1
    let t3 :=
      if t2 = [] then (pyStrip ((wh.takeWhile (· != '.')).takeWhile (· != '\n'))).take 100
      else t2
    if t3 = [] then none
    else
      let discipline_raw :=
        if getXlsx cm row "discipline" ≠ [] then getXlsx cm row "discipline"
        else getXlsx cm row "category"
      let impact := getXlsx cm row "impact"
      let logged_by := getXlsx cm row "logged_by"
      let status := getXlsx cm row "status"
      let docs := getXlsx cm row "docs"
      let kwParts :=
        [getXlsx cm row "keywords", getXlsx cm row "category"]
          ++ (if logged_by ≠ [] then ["logged by: ".toList ++ logged_by] else [])
          ++ (if status ≠ [] then ["status: ".toList ++ status] else [])
          ++ (if docs ≠ [] then [docs] else [])
      some
        { title := t3
          description := d3
          root_cause := getXlsx cm row "root_cause"
          recommendation := getXlsx cm row "recommendation"
          impact := impact
          work_type := "Pipeline Construction".toList
          phase := getXlsx cm row "phase"
          discipline := map_discipline discipline_raw
          severity := map_severity impact
          environment := []
          project := getXlsx cm row "project"
          location := getXlsx cm row "region"
          keywords := joinCommaSpace (kwParts.filter (fun s => !s.isEmpty))
          logged_by := logged_by
          status := status
          assigned_to := getXlsx cm row "assigned_to"
          supporting_docs := docs }

/-- Model of `parse_xlsx` from the extracted rows onward (parsers.py
lines 97-188); workbook loading and sheet selection happen in the
external openpyxl library, so the sheet title and its rows are the
inputs.  Cells are the string renderings openpyxl hands to `cell_str`. -/
def parse_xlsx (sheetTitle : Str) (rows : List (List Str)) : List LessonX × Option Str :=
  if rows.length < 2 then
    ([], some ("Sheet \"".toList ++ sheetTitle ++ "\" has no data rows.".toList))
  else
    let raw_headers := (rows.headD []).map (fun h => (cell_str h).map Char.toLower)
    let cm := colMapXlsx raw_headers
    ((rows.drop 1).filterMap (xlsxRow cm), none)

/-- One data row of `parse_csv` (parsers.py lines 228-258). -/
def csvRow (cm : List (String × Int)) (row : List Str) : Option LessonC :=
  let context := getCsv cm row "context"
  let wh := getCsv cm row "what_happened"
  if context = [] ∧ wh = [] then none
  else
    let d1 := context
    let d2 :=
      if wh ≠ [] ∧ wh ≠ context then
        (if d1 ≠ [] then d1 ++ "\n\nWhat happened: ".toList ++ wh else wh)
      else d1
    let t1 := (pyStrip ((context.takeWhile (· != '.')).takeWhile (· != '\n'))).take 100
    let t2 := if t1 = [] then (pyStrip (wh.takeWhile (· != '.'))).take 100 else t1
    if t2 = [] then none
    else
      let impact := getCsv cm row "impact"
      let discipline_raw :=
        if getCsv cm row "discipline" ≠ [] then getCsv cm row "discipline"
        else getCsv cm row "category"
      some
        { title := t2
          description := d2
          root_cause := getCsv cm row "root_cause"
          recommendation := getCsv cm row "recommendation"
          impact := impact
          work_type := "Pipeline Construction".toList
          phase := getCsv cm row "phase"
          discipline := map_discipline discipline_raw
          severity := map_severity impact
          project := getCsv cm row "project"
          location := getCsv cm row "region"
          keywords := getCsv cm row "keywords" }

/-- Model of `parse_csv` from the decoded rows onward (parsers.py lines
191-260); BOM stripping and CSV tokenization happen in the external csv
module, so the rows are the input. -/
def parse_csv (rows : List (List Str)) : List LessonC × Option Str :=
  if rows.length < 2 then ([], some ("CSV has no data rows.".toList))
  else
    let raw_headers := (rows.headD []).map (fun h => pyStrip (h.map Char.toLower))
    let cm := colMapCsv raw_headers
    ((rows.drop 1).filterMap (csvRow cm), none)

example : map_severity "resulted in a fatality".toList = "Critical".toList := by rfl

example : map_severity "minor delay of one week".toList = "High".toList := by rfl

example : map_severity [] = "Medium".toList := by rfl

example : map_discipline "NDE/UT inspection findings".toList = "NDE".toList := by rfl

example : find_col ["ll # (auto)".toList] ["ll #".toList] = 0 := by rfl

/-! ## Helper lemmas on the Python string primitives -/

theorem pyLstrip_cons_false {c : Char} {s : Str} (h : pyws c = false) :
    pyLstrip (c :: s) = c :: s := by
  simp [pyLstrip, List.dropWhile_cons, h]

theorem pyLstrip_cons_true {c : Char} {s : Str} (h : pyws c = true) :
    pyLstrip (c :: s) = pyLstrip s := by
  simp [pyLstrip, List.dropWhile_cons, h]

theorem pyRstrip_concat_false {c : Char} {s : Str} (h : pyws c = false) :
    pyRstrip (s ++ [c]) = s ++ [c] := by
  simp [pyRstrip, List.dropWhile_cons, h]

theorem pyRstrip_concat_true {c : Char} {s : Str} (h : pyws c = true) :
    pyRstrip (s ++ [c]) = pyRstrip s := by
  simp [pyRstrip, List.dropWhile_cons, h]

theorem pyStrip_cons_concat {a b : Char} {s : Str} (ha : pyws a = false)
    (hb : pyws b = false) : pyStrip (a :: (s ++ [b])) = a :: (s ++ [b]) := by
  have he : a :: (s ++ [b]) = (a :: s) ++ [b] := by simp
  rw [pyStrip, he, pyRstrip_concat_false hb, ← he, pyLstrip_cons_false ha]

theorem pyStrip_single {a : Char} (ha : pyws a = false) : pyStrip [a] = [a] := by
  simp [pyStrip, pyLstrip, pyRstrip, List.dropWhile_cons, ha]

theorem rstripComma_concat_ne {c : Char} {s : Str} (h : (c == ',') = false) :
    rstripComma (s ++ [c]) = s ++ [c] := by
  simp [rstripComma, List.dropWhile_cons, h]

theorem rlast_append_some {c : Char} :
    ∀ {A B : Str} {i : Nat}, rlast c B = some i → rlast c (A ++ B) = some (A.length + i) := by
  intro A
  induction A with
  | nil => intro B i h; simpa using h
  | cons a A' ih =>
    intro B i h
    have hi := ih h
    simp only [List.cons_append, rlast]
    rw [List.append_eq, hi]
    simp only [List.length_cons]
    congr 1
    omega

theorem rlast_append_none {c : Char} :
    ∀ {A B : Str}, rlast c B = none → rlast c (A ++ B) = rlast c A := by
  intro A
  induction A with
  | nil => intro B h; simpa using h
  | cons a A' ih =>
    intro B h
    have hi := ih h
    simp only [List.cons_append, rlast]
    rw [List.append_eq, hi]

theorem rlast_eq_none_of_not_mem {c : Char} :
    ∀ {s : Str}, c ∉ s → rlast c s = none := by
  intro s
  induction s with
  | nil => intro _; rfl
  | cons a t ih =>
    intro h
    have ha : (a == c) = false := by
      simp only [beq_eq_false_iff_ne]
      intro he
      exact h (by simp [he])
    have ht : c ∉ t := fun hm => h (List.mem_cons_of_mem _ hm)
    simp [rlast, ih ht, ha]

theorem rlast_concat {c : Char} {A : Str} : rlast c (A ++ [c]) = some A.length := by
  have : rlast c [c] = some 0 := by simp [rlast]
  simpa using @rlast_append_some c A [c] 0 this

theorem pyReplace_append_left {p : Char} {pt rep : Str} :
    ∀ {x y : Str}, p ∉ x → pyReplace (p :: pt) rep (x ++ y) = x ++ pyReplace (p :: pt) rep y := by
  intro x
  induction x with
  | nil => intro y _; simp
  | cons c x' ih =>
    intro y h
    have hc : (p == c) = false := by
      simp only [beq_eq_false_iff_ne]
      intro he
      exact h (by simp [he])
    have hpre : ((p :: pt).isPrefixOf (c :: (x' ++ y))) = false := by
      simp [List.isPrefixOf, hc]
    rw [List.cons_append, pyReplace, dif_neg (by simp [hpre])]
    have ht : p ∉ x' := fun hm => h (List.mem_cons_of_mem _ hm)
    rw [ih ht]
    simp

theorem pyReplace_of_not_mem {p : Char} {pt rep s : Str} (h : p ∉ s) :
    pyReplace (p :: pt) rep s = s := by
  have := @pyReplace_append_left p pt rep s [] h
  simpa [pyReplace] using this

theorem isSub_of_isPrefixOf {n s : Str} (h : n.isPrefixOf s = true) : isSub n s = true := by
  cases s with
  | nil =>
    cases n with
    | nil => rfl
    | cons a t => simp [List.isPrefixOf] at h
  | cons c rest => simp [isSub, h]

/-- Characters that are not brackets, for the closing-stack computation. -/
def noBracket (c : Char) : Bool :=
  !(c == '{') && !(c == '[') && !(c == '}') && !(c == ']')

theorem closeStackAux_no_brackets :
    ∀ {s : Str} {st : List Char}, s.all noBracket = true → closeStackAux s st = st := by
  intro s
  induction s with
  | nil => intro st _; rfl
  | cons c rest ih =>
    intro st h
    simp only [List.all_cons, Bool.and_eq_true] at h
    have h1 : (c == '{') = false := by
      have := h.1; simp [noBracket] at this; simp [this]
    have h2 : (c == '[') = false := by
      have := h.1; simp [noBracket] at this; simp [this]
    have h3 : (c == '}') = false := by
      have := h.1; simp [noBracket] at this; simp [this]
    have h4 : (c == ']') = false := by
      have := h.1; simp [noBracket] at this; simp [this]
    simp [closeStackAux, h1, h2, h3, h4, ih h.2]

theorem closeStackAux_append :
    ∀ {a b : Str} {st : List Char},
      closeStackAux (a ++ b) st = closeStackAux b (closeStackAux a st) := by
  intro a
  induction a with
  | nil => intro b st; rfl
  | cons c rest ih =>
    intro b st
    by_cases h1 : (c == '{') = true
    · simp [closeStackAux, h1, ih]
    · by_cases h2 : (c == '[') = true
      · simp [closeStackAux, h1, h2, ih]
      · by_cases h3 : (c == '}') = true ∨ (c == ']') = true
        · rcases h3 with h3 | h3 <;>
          · cases st with
            | nil => simp [closeStackAux, h1, h2, h3, ih]
            | cons x t => simp [closeStackAux, h1, h2, h3, ih]
        · push_neg at h3
          simp only [Bool.not_eq_true] at h1 h2
          obtain ⟨h3a, h3b⟩ := h3
          simp only [Bool.not_eq_true] at h3a h3b
          simp [closeStackAux, h1, h2, h3a, h3b, ih]

/-! ## Parser metatheory: strings, whitespace and numbers -/

/-- Texts with no backslash (no string escapes), where quote counting is
exact. -/
def noBS (s : Str) : Bool := s.all (fun c => !(c == '\\'))

theorem goodStrChar_not_quote {c : Char} (h : goodStrChar c = true) : (c == '"') = false := by
  simp only [goodStrChar, Bool.and_eq_true, Bool.not_eq_true'] at h
  exact h.1.1.1

theorem goodStrChar_not_bs {c : Char} (h : goodStrChar c = true) : (c == '\\') = false := by
  simp only [goodStrChar, Bool.and_eq_true, Bool.not_eq_true'] at h
  exact h.1.1.2

theorem goodStrChar_not_ctrl {c : Char} (h : goodStrChar c = true) : ¬ c.toNat < 32 := by
  simp only [goodStrChar, Bool.and_eq_true, Bool.not_eq_true', decide_eq_true_eq] at h
  omega

theorem goodStrChar_not_tick {c : Char} (h : goodStrChar c = true) : (c == btick) = false := by
  simp only [goodStrChar, Bool.and_eq_true, Bool.not_eq_true'] at h
  exact h.2

theorem parseStr_ser :
    ∀ {p rest : Str}, goodStr p = true → parseStr (p ++ '"' :: rest) = some (p, rest) := by
  intro p
  induction p with
  | nil =>
    intro rest _
    rw [List.nil_append, parseStr.eq_def]
    simp
  | cons c p' ih =>
    intro rest h
    simp only [goodStr, List.all_cons, Bool.and_eq_true] at h
    have h1 := goodStrChar_not_quote h.1
    have h2 := goodStrChar_not_bs h.1
    have h3 := goodStrChar_not_ctrl h.1
    rw [List.cons_append, parseStr.eq_def]
    simp only [h1, h2, if_neg h3, Bool.false_eq_true, if_false]
    rw [ih h.2]
    rfl

theorem parseStr_trunc : ∀ {p : Str}, goodStr p = true → parseStr p = none := by
  intro p
  induction p with
  | nil => intro _; rfl
  | cons c p' ih =>
    intro h
    simp only [goodStr, List.all_cons, Bool.and_eq_true] at h
    have h1 := goodStrChar_not_quote h.1
    have h2 := goodStrChar_not_bs h.1
    have h3 := goodStrChar_not_ctrl h.1
    rw [parseStr.eq_def]
    simp only [h1, h2, if_neg h3, Bool.false_eq_true, if_false]
    rw [ih h.2]
    rfl

theorem parseStr_quotes :
    ∀ {s x r : Str}, noBS s = true → parseStr s = some (x, r) →
      s.count '"' = r.count '"' + 1 ∧ noBS r = true := by
  intro s
  induction s with
  | nil =>
    intro x r _ h
    rw [parseStr.eq_def] at h
    exact absurd h (by simp)
  | cons c rest ih =>
    intro x r hbs h
    simp only [noBS, List.all_cons, Bool.and_eq_true] at hbs
    have hb : (c == '\\') = false := by simpa using hbs.1
    rw [parseStr.eq_def] at h
    by_cases hq : (c == '"') = true
    · simp only [hq, if_true] at h
      cases h
      have hc : c = '"' := by simpa using hq
      exact ⟨by simp [hc, List.count_cons], by simpa [noBS] using hbs.2⟩
    · simp only [hq, hb, Bool.false_eq_true, if_false] at h
      by_cases hctl : c.toNat < 32
      · rw [if_pos hctl] at h
        exact absurd h (by simp)
      · rw [if_neg hctl] at h
        cases hps : parseStr rest with
        | none => rw [hps] at h; exact absurd h (by simp)
        | some pr =>
          obtain ⟨ps, rs⟩ := pr
          rw [hps] at h
          have h' : c :: ps = x ∧ rs = r := by simpa using h
          obtain ⟨hx, hr⟩ := h'
          subst hx
          subst hr
          obtain ⟨h1, h2⟩ := ih (by simpa [noBS] using hbs.2) hps
          have hcq : ¬ c = '"' := by simpa using hq
          exact ⟨by simp [List.count_cons, hcq, h1], h2⟩

theorem skipWs_cons_false {c : Char} {s : Str} (h : jws c = false) :
    skipWs (c :: s) = c :: s := by
  simp [skipWs, List.dropWhile_cons, h]

theorem count_dropWhile {p : Char → Bool} {c : Char} (hc : p c = false) :
    ∀ s : Str, (s.dropWhile p).count c = s.count c := by
  intro s
  induction s with
  | nil => rfl
  | cons a t ih =>
    by_cases ha : p a = true
    · have hac : ¬ a = c := by
        intro he
        rw [he] at ha
        rw [ha] at hc
        exact absurd hc (by simp)
      simp [List.dropWhile_cons, ha, ih, List.count_cons, hac]
    · simp [List.dropWhile_cons, ha]

theorem all_dropWhile {p q : Char → Bool} :
    ∀ {s : Str}, s.all q = true → (s.dropWhile p).all q = true := by
  intro s
  induction s with
  | nil => intro _; rfl
  | cons a t ih =>
    intro h
    simp only [List.all_cons, Bool.and_eq_true] at h
    by_cases ha : p a = true
    · simp [List.dropWhile_cons, ha, ih h.2]
    · simp [List.dropWhile_cons, ha, h.1, h.2, List.all_cons]

theorem takeWhile_append_of_all {p : Char → Bool} :
    ∀ {s r : Str}, s.all p = true → (s ++ r).takeWhile p = s ++ r.takeWhile p := by
  intro s
  induction s with
  | nil => intro r _; rfl
  | cons a t ih =>
    intro r h
    simp only [List.all_cons, Bool.and_eq_true] at h
    simp [List.takeWhile_cons, h.1, ih h.2]

theorem dropWhile_append_of_all {p : Char → Bool} :
    ∀ {s r : Str}, s.all p = true → (s ++ r).dropWhile p = r.dropWhile p := by
  intro s
  induction s with
  | nil => intro r _; rfl
  | cons a t ih =>
    intro r h
    simp only [List.all_cons, Bool.and_eq_true] at h
    simp [List.dropWhile_cons, h.1, ih h.2]

theorem isDigit_ofNat_digit {k : Nat} (h : k < 10) : (Char.ofNat (48 + k)).isDigit = true := by
  interval_cases k <;> decide

theorem ofNat_digit_ne_zero {k : Nat} (h1 : 0 < k) (h2 : k < 10) :
    (Char.ofNat (48 + k) == '0') = false := by
  interval_cases k <;> decide

theorem digitVal_ofNat {k : Nat} (h : k < 10) : digitVal (Char.ofNat (48 + k)) = k := by
  interval_cases k <;> decide

theorem serNat_ne_nil (n : Nat) : serNat n ≠ [] := by
  rw [serNat]
  split <;> simp

theorem serNat_all_digit : ∀ n : Nat, (serNat n).all Char.isDigit = true := by
  intro n
  induction n using Nat.strong_induction_on with
  | _ n ih =>
    rw [serNat]
    split
    · next h => simp [isDigit_ofNat_digit h]
    · next h =>
      have hd : n / 10 < n := Nat.div_lt_self (by omega) (by omega)
      have hm : n % 10 < 10 := Nat.mod_lt _ (by omega)
      simp [List.all_append, ih _ hd, isDigit_ofNat_digit hm]

theorem serNat_head_ne_zero :
    ∀ {n : Nat}, 0 < n → ∀ {c : Char} {t : Str}, serNat n = c :: t → (c == '0') = false := by
  intro n
  induction n using Nat.strong_induction_on with
  | _ n ih =>
    intro hn c t h
    rw [serNat] at h
    split at h
    · next hlt =>
      cases h
      exact ofNat_digit_ne_zero hn hlt
    · next hge =>
      have hd : n / 10 < n := Nat.div_lt_self (by omega) (by omega)
      have hdp : 0 < n / 10 := Nat.div_pos (by omega) (by omega)
      cases hsn : serNat (n / 10) with
      | nil => exact absurd hsn (serNat_ne_nil _)
      | cons c' t' =>
        rw [hsn] at h
        simp only [List.cons_append, List.cons.injEq] at h
        rw [← h.1]
        exact ih _ hd hdp hsn

theorem serNat_val :
    ∀ n : Nat, (serNat n).foldl (fun a d => a * 10 + digitVal d) 0 = n := by
  intro n
  induction n using Nat.strong_induction_on with
  | _ n ih =>
    rw [serNat]
    split
    · next h => simp [digitVal_ofNat h]
    · next h =>
      have hd : n / 10 < n := Nat.div_lt_self (by omega) (by omega)
      have hm : n % 10 < 10 := Nat.mod_lt _ (by omega)
      rw [List.foldl_append, ih _ hd]
      simp [digitVal_ofNat hm]
      omega

/-- Characters that may legally follow a serialized value in the texts
the theorems build: a delimiter, or the end of the text. -/
def delimOk (rest : Str) : Bool :=
  match rest with
  | [] => true
  | c :: _ => c == ',' || c == ']' || c == '}'

theorem delimOk_not_digit {rest : Str} (h : delimOk rest = true) :
    rest = [] ∨ ∃ c t, rest = c :: t ∧ c.isDigit = false ∧ (c == '.') = false ∧
      (c == 'e') = false ∧ (c == 'E') = false ∧ jws c = false := by
  cases rest with
  | nil => exact Or.inl rfl
  | cons c t =>
    right
    refine ⟨c, t, rfl, ?_⟩
    simp only [delimOk, Bool.or_eq_true, beq_iff_eq] at h
    rcases h with (h | h) | h <;> subst h <;> decide

theorem parseUInt_ser :
    ∀ {n : Nat} {rest : Str}, delimOk rest = true →
      parseUInt (serNat n ++ rest) = some (n, rest) := by
  intro n rest hrest
  by_cases hn : n = 0
  · subst hn
    have h0 : serNat 0 = ['0'] := by rw [serNat]; rfl
    rw [h0]
    rcases delimOk_not_digit hrest with h | ⟨c, t, he, hd, hdot, hee, hEE, _⟩
    · subst h; rfl
    · subst he
      simp [parseUInt, blocksZero, hd, hdot, hee, hEE]
  · cases hsn : serNat n with
    | nil => exact absurd hsn (serNat_ne_nil _)
    | cons c t =>
      have hall : (c :: t).all Char.isDigit = true := hsn ▸ serNat_all_digit n
      have hc0 : (c == '0') = false := serNat_head_ne_zero (by omega) hsn
      have hcd : c.isDigit = true := by
        simp only [List.all_cons, Bool.and_eq_true] at hall
        exact hall.1
      have htake : ((c :: t) ++ rest).takeWhile Char.isDigit
          = (c :: t) ++ rest.takeWhile Char.isDigit := takeWhile_append_of_all hall
      have hdrop : ((c :: t) ++ rest).dropWhile Char.isDigit
          = rest.dropWhile Char.isDigit := dropWhile_append_of_all hall
      have hval : ((c :: t).foldl (fun a d => a * 10 + digitVal d) 0) = n := by
        have := serNat_val n
        rwa [hsn] at this
      rcases delimOk_not_digit hrest with h | ⟨x, xt, he, hd, hdot, hee, hEE, _⟩
      · subst h
        simp only [List.append_nil] at htake hdrop ⊢
        simp only [parseUInt, hc0, hcd]
        simp only [Bool.false_eq_true, if_false, if_true]
        rw [htake, hdrop]
        simp [blocksNum, hval]
      · subst he
        have htw : (x :: xt).takeWhile Char.isDigit = [] := by
          simp [List.takeWhile_cons, hd]
        have hdw : (x :: xt).dropWhile Char.isDigit = x :: xt := by
          simp [List.dropWhile_cons, hd]
        simp only [List.cons_append, parseUInt, hc0, hcd]
        simp only [Bool.false_eq_true, if_false, if_true]
        rw [show c :: (t ++ x :: xt) = (c :: t) ++ x :: xt from rfl, htake, hdrop, htw, hdw]
        simp [blocksNum, hd, hdot, hee, hEE, hval]

theorem parseIntTok_ser :
    ∀ {i : Int} {rest : Str}, delimOk rest = true →
      parseIntTok (serInt i ++ rest) = some (i, rest) := by
  intro i rest hrest
  cases i with
  | ofNat n =>
    simp only [serInt]
    cases hsn : serNat n with
    | nil => exact absurd hsn (serNat_ne_nil _)
    | cons c t =>
      have hall : (serNat n).all Char.isDigit = true := serNat_all_digit n
      have hcd : c.isDigit = true := by
        rw [hsn] at hall
        simp only [List.all_cons, Bool.and_eq_true] at hall
        exact hall.1
      have hcm : (c == '-') = false := by
        simp only [beq_eq_false_iff_ne]
        intro he
        rw [he] at hcd
        exact absurd hcd (by decide)
      have := @parseUInt_ser n rest hrest
      rw [hsn] at this
      simp only [List.cons_append, parseIntTok, hcm]
      simp only [Bool.false_eq_true, if_false]
      rw [show c :: (t ++ rest) = (c :: t) ++ rest from rfl, this]
      rfl
  | negSucc m =>
    simp only [serInt, List.cons_append, parseIntTok]
    simp only [beq_self_eq_true, if_true]
    rw [parseUInt_ser hrest]
    simp [Int.negSucc_eq]

/-! ## Quote-parity of the parser -/

theorem all_mono {p q : Char → Bool} (h : ∀ c, p c = true → q c = true) :
    ∀ {s : Str}, s.all p = true → s.all q = true := by
  intro s hs
  rw [List.all_eq_true] at *
  exact fun c hc => h c (hs c hc)

theorem count_zero_of_all {p : Char → Bool} {c : Char} (hpc : p c = false) :
    ∀ {s : Str}, s.all p = true → s.count c = 0 := by
  intro s h
  rw [List.count_eq_zero]
  intro hc
  rw [List.all_eq_true] at h
  have hp := h c hc
  rw [hp] at hpc
  exact absurd hpc (by simp)

theorem beq_false_of_pred {p : Char → Bool} {c d : Char} (h : p c = true) (hd : p d = false) :
    (c == d) = false := by
  simp only [beq_eq_false_iff_ne]
  intro he
  rw [he] at h
  rw [h] at hd
  exact absurd hd (by simp)

theorem noBS_append {a b : Str} : noBS (a ++ b) = (noBS a && noBS b) := by
  simp [noBS, List.all_append]

theorem skipWs_count (s : Str) : (skipWs s).count '"' = s.count '"' :=
  count_dropWhile (by decide) s

theorem skipWs_noBS {s : Str} (h : noBS s = true) : noBS (skipWs s) = true :=
  all_dropWhile h

theorem all_takeWhile {p : Char → Bool} : ∀ {s : Str}, (s.takeWhile p).all p = true := by
  intro s
  induction s with
  | nil => rfl
  | cons a t ih =>
    by_cases ha : p a = true
    · simp [List.takeWhile_cons, ha, ih]
    · simp [List.takeWhile_cons, ha]

theorem parseUInt_consumes :
    ∀ {s : Str} {n : Nat} {r : Str}, parseUInt s = some (n, r) →
      ∃ pre, s = pre ++ r ∧ pre.all Char.isDigit = true := by
  intro s n r h
  rw [parseUInt.eq_def] at h
  cases s with
  | nil => exact absurd h (by simp)
  | cons c rest =>
    by_cases h0 : (c == '0') = true
    · have hc : c = '0' := by simpa using h0
      simp only [h0, if_true] at h
      by_cases hb : blocksZero rest = true
      · rw [if_pos hb] at h
        exact absurd h (by simp)
      · rw [if_neg hb] at h
        have h1 : rest = r := by
          have h' := h
          simp only [Option.some.injEq, Prod.mk.injEq] at h'
          exact h'.2
        refine ⟨['0'], ?_, by decide⟩
        rw [hc, ← h1]
        rfl
    · by_cases hcd : c.isDigit = true
      · simp only [h0, Bool.false_eq_true, if_false, hcd, if_true] at h
        by_cases hb : blocksNum ((c :: rest).dropWhile Char.isDigit) = true
        · rw [if_pos hb] at h
          exact absurd h (by simp)
        · rw [if_neg hb] at h
          have h1 : (c :: rest).dropWhile Char.isDigit = r := by
            have h' := h
            simp only [Option.some.injEq, Prod.mk.injEq] at h'
            exact h'.2
          refine ⟨(c :: rest).takeWhile Char.isDigit, ?_, all_takeWhile⟩
          rw [← h1]
          exact (List.takeWhile_append_dropWhile _ _).symm
      · simp only [h0, Bool.false_eq_true, if_false, hcd] at h
        exact absurd h (by simp)

theorem parseIntTok_consumes :
    ∀ {s : Str} {i : Int} {r : Str}, parseIntTok s = some (i, r) →
      ∃ pre, s = pre ++ r ∧ pre.all (fun c => c.isDigit || c == '-') = true := by
  intro s i r h
  rw [parseIntTok.eq_def] at h
  cases s with
  | nil => exact absurd h (by simp)
  | cons c rest =>
    by_cases hm : (c == '-') = true
    · have hc : c = '-' := by simpa using hm
      simp only [hm, if_true] at h
      cases hpu : parseUInt rest with
      | none => rw [hpu] at h; exact absurd h (by simp)
      | some pr =>
        obtain ⟨n, r2⟩ := pr
        rw [hpu] at h
        have h1 : r2 = r := by
          have := (by simpa using h : _ ∧ r2 = r)
          exact this.2
        obtain ⟨pre, hpre, hall⟩ := parseUInt_consumes hpu
        refine ⟨c :: pre, ?_, ?_⟩
        · rw [List.cons_append, hpre, h1]
        · simp only [List.all_cons, Bool.and_eq_true]
          exact ⟨by simp [hc], all_mono (fun x hx => by simp [hx]) hall⟩
    · simp only [hm, Bool.false_eq_true, if_false] at h
      cases hpu : parseUInt (c :: rest) with
      | none => rw [hpu] at h; exact absurd h (by simp)
      | some pr =>
        obtain ⟨n, r2⟩ := pr
        rw [hpu] at h
        have h1 : r2 = r := by
          have := (by simpa using h : _ ∧ r2 = r)
          exact this.2
        obtain ⟨pre, hpre, hall⟩ := parseUInt_consumes hpu
        refine ⟨pre, by rw [← h1, ← hpre], all_mono (fun x hx => by simp [hx]) hall⟩

theorem digitDash_no_quote {pre : Str} (h : pre.all (fun c => c.isDigit || c == '-') = true) :
    pre.count '"' = 0 :=
  count_zero_of_all (by decide) h

theorem digitDash_noBS {pre : Str} (h : pre.all (fun c => c.isDigit || c == '-') = true) :
    noBS pre = true :=
  all_mono (fun c hc => by
    simp only [Bool.or_eq_true] at hc
    rcases hc with hc | hc
    · simp only [Bool.not_eq_true']
      exact beq_false_of_pred hc (by decide)
    · have : c = '-' := by simpa using hc
      simp [this]) h

/-- Parity property a value parser must satisfy: on backslash-free input
a successful parse consumes an even number of double quotes. -/
def QuotesOk (pv : Str → Option (Json × Str)) : Prop :=
  ∀ s v r, noBS s = true → pv s = some (v, r) →
    s.count '"' % 2 = r.count '"' % 2 ∧ noBS r = true

theorem noBS_cons_elim {c : Char} {s : Str} (h : noBS (c :: s) = true) : noBS s = true := by
  simp only [noBS, List.all_cons, Bool.and_eq_true] at h
  exact h.2

theorem count_cons_ne_quote {c : Char} {s : Str} (hc : ¬ c = '"') :
    (c :: s).count '"' = s.count '"' := by
  simp [List.count_cons, hc]

theorem prefixTok_decomp {pre r : Str} (h : pre.isPrefixOf r = true) :
    r.drop pre.length = (r.drop pre.length) ∧ r = pre ++ r.drop pre.length := by
  rw [List.isPrefixOf_iff_prefix] at h
  obtain ⟨t, ht⟩ := h
  constructor
  · rfl
  · conv_lhs => rw [← ht]
    rw [← ht, List.drop_left]

theorem parseItems_quotes {pv : Str → Option (Json × Str)} (hp : QuotesOk pv) :
    ∀ (n : Nat) {s : Str} {l : JsonList} {r : Str}, noBS s = true →
      parseItems pv n s = some (l, r) →
      s.count '"' % 2 = r.count '"' % 2 ∧ noBS r = true := by
  intro n
  induction n with
  | zero => intro s l r _ h; exact absurd h (by simp [parseItems])
  | succ n ih =>
    intro s l r hbs h
    simp only [parseItems] at h
    split at h
    · next v r1 hpv =>
      obtain ⟨hpar1, hbs1⟩ := hp s v r1 hbs hpv
      have hbsw : noBS (skipWs r1) = true := skipWs_noBS hbs1
      have hcw : r1.count '"' % 2 = (skipWs r1).count '"' % 2 := by rw [skipWs_count]
      split at h
      · next r2 heq =>
        rw [heq] at hbsw hcw
        have hbsr2 : noBS r2 = true := noBS_cons_elim hbsw
        cases hrec : parseItems pv n r2 with
        | none => rw [hrec] at h; exact absurd h (by simp)
        | some lr =>
          obtain ⟨l2, r3⟩ := lr
          rw [hrec] at h
          have h3 : JsonList.cons v l2 = l ∧ r3 = r := by simpa using h
          obtain ⟨hl, hr⟩ := h3
          subst hr
          obtain ⟨hpar2, hbs3⟩ := ih hbsr2 hrec
          refine ⟨?_, hbs3⟩
          have hc2 : (',' :: r2).count '"' = r2.count '"' := count_cons_ne_quote (by decide)
          omega
      · next r2 heq =>
        rw [heq] at hbsw hcw
        have h3 : JsonList.cons v JsonList.nil = l ∧ r2 = r := by simpa using h
        obtain ⟨hl, hr⟩ := h3
        refine ⟨?_, hr ▸ noBS_cons_elim hbsw⟩
        have hc2 : (']' :: r2).count '"' = r2.count '"' := count_cons_ne_quote (by decide)
        rw [← hr]
        omega
      · exact absurd h (by simp)
    · exact absurd h (by simp)

theorem parsePairs_quotes {pv : Str → Option (Json × Str)} (hp : QuotesOk pv) :
    ∀ (n : Nat) {s : Str} {m : JsonKVs} {r : Str}, noBS s = true →
      parsePairs pv n s = some (m, r) →
      s.count '"' % 2 = r.count '"' % 2 ∧ noBS r = true := by
  intro n
  induction n with
  | zero => intro s m r _ h; exact absurd h (by simp [parsePairs])
  | succ n ih =>
    intro s m r hbs h
    simp only [parsePairs] at h
    have hbsw : noBS (skipWs s) = true := skipWs_noBS hbs
    have hcw : s.count '"' % 2 = (skipWs s).count '"' % 2 := by rw [skipWs_count]
    split at h
    · next kr heq =>
      rw [heq] at hbsw hcw
      have hbskr : noBS kr = true := noBS_cons_elim hbsw
      have hckr : ('"' :: kr).count '"' = kr.count '"' + 1 := by simp [List.count_cons]
      split at h
      · next k r1 hps =>
        obtain ⟨hkcount, hbs1⟩ := parseStr_quotes hbskr hps
        have hbsw1 : noBS (skipWs r1) = true := skipWs_noBS hbs1
        have hcw1 : r1.count '"' % 2 = (skipWs r1).count '"' % 2 := by rw [skipWs_count]
        split at h
        · next r2 heq2 =>
          rw [heq2] at hbsw1 hcw1
          have hbsr2 : noBS r2 = true := noBS_cons_elim hbsw1
          have hc2 : (':' :: r2).count '"' = r2.count '"' := count_cons_ne_quote (by decide)
          split at h
          · next v r3 hpv =>
            obtain ⟨hpar2, hbs3⟩ := hp r2 v r3 hbsr2 hpv
            have hbsw3 : noBS (skipWs r3) = true := skipWs_noBS hbs3
            have hcw3 : r3.count '"' % 2 = (skipWs r3).count '"' % 2 := by rw [skipWs_count]
            split at h
            · next r4 heq4 =>
              rw [heq4] at hbsw3 hcw3
              have hbsr4 : noBS r4 = true := noBS_cons_elim hbsw3
              cases hrec : parsePairs pv n r4 with
              | none => rw [hrec] at h; exact absurd h (by simp)
              | some mr =>
                obtain ⟨m2, r5⟩ := mr
                rw [hrec] at h
                have h3 : JsonKVs.cons k v m2 = m ∧ r5 = r := by simpa using h
                obtain ⟨hm, hr⟩ := h3
                subst hr
                obtain ⟨hpar4, hbs5⟩ := ih hbsr4 hrec
                refine ⟨?_, hbs5⟩
                have hc4 : (',' :: r4).count '"' = r4.count '"' := count_cons_ne_quote (by decide)
                omega
            · next r4 heq4 =>
              rw [heq4] at hbsw3 hcw3
              have h3 : JsonKVs.cons k v JsonKVs.nil = m ∧ r4 = r := by simpa using h
              obtain ⟨hm, hr⟩ := h3
              refine ⟨?_, hr ▸ noBS_cons_elim hbsw3⟩
              have hc4 : ('}' :: r4).count '"' = r4.count '"' := count_cons_ne_quote (by decide)
              rw [← hr]
              omega
            · exact absurd h (by simp)
          · exact absurd h (by simp)
        · exact absurd h (by simp)
      · exact absurd h (by simp)
    · exact absurd h (by simp)

theorem count_quote_rue : (['r', 'u', 'e'] : Str).count '"' = 0 := by decide

theorem parseV_quotes :
    ∀ (fuel : Nat) {s : Str} {v : Json} {r : Str}, noBS s = true →
      parseV fuel s = some (v, r) →
      s.count '"' % 2 = r.count '"' % 2 ∧ noBS r = true := by
  intro fuel
  induction fuel with
  | zero => intro s v r _ h; exact absurd h (by simp [parseV])
  | succ n ih =>
    intro s v r hbs h
    have hQ : QuotesOk (parseV n) := fun s' v' r' hbs' h' => ih hbs' h'
    simp only [parseV] at h
    have hbsw : noBS (skipWs s) = true := skipWs_noBS hbs
    have hcw : s.count '"' % 2 = (skipWs s).count '"' % 2 := by rw [skipWs_count]
    split at h
    · exact absurd h (by simp)
    · next c r0 heq =>
      rw [heq] at hbsw hcw
      have hbsr0 : noBS r0 = true := noBS_cons_elim hbsw
      by_cases h1 : (c == '{') = true
      · rw [if_pos h1] at h
        have hc : c = '{' := by simpa using h1
        have hcc : (c :: r0).count '"' = r0.count '"' :=
          count_cons_ne_quote (by rw [hc]; decide)
        have hbsw2 : noBS (skipWs r0) = true := skipWs_noBS hbsr0
        have hcw2 : r0.count '"' % 2 = (skipWs r0).count '"' % 2 := by rw [skipWs_count]
        split at h
        · next r2 heq2 =>
          rw [heq2] at hbsw2 hcw2
          have h3 : Json.obj JsonKVs.nil = v ∧ r2 = r := by simpa using h
          obtain ⟨hv, hr⟩ := h3
          refine ⟨?_, hr ▸ noBS_cons_elim hbsw2⟩
          have hc2 : ('}' :: r2).count '"' = r2.count '"' := count_cons_ne_quote (by decide)
          rw [← hr]
          omega
        · cases hpp : parsePairs (parseV n) n r0 with
          | none => rw [hpp] at h; exact absurd h (by simp)
          | some mr =>
            obtain ⟨m, r2⟩ := mr
            rw [hpp] at h
            have h3 : Json.obj m = v ∧ r2 = r := by simpa using h
            obtain ⟨hv, hr⟩ := h3
            obtain ⟨hpar, hbs2⟩ := parsePairs_quotes hQ n hbsr0 hpp
            refine ⟨?_, hr ▸ hbs2⟩
            rw [← hr]
            omega
      · rw [if_neg h1] at h
        by_cases h2 : (c == '[') = true
        · rw [if_pos h2] at h
          have hc : c = '[' := by simpa using h2
          have hcc : (c :: r0).count '"' = r0.count '"' :=
            count_cons_ne_quote (by rw [hc]; decide)
          have hbsw2 : noBS (skipWs r0) = true := skipWs_noBS hbsr0
          have hcw2 : r0.count '"' % 2 = (skipWs r0).count '"' % 2 := by rw [skipWs_count]
          split at h
          · next r2 heq2 =>
            rw [heq2] at hbsw2 hcw2
            have h3 : Json.arr JsonList.nil = v ∧ r2 = r := by simpa using h
            obtain ⟨hv, hr⟩ := h3
            refine ⟨?_, hr ▸ noBS_cons_elim hbsw2⟩
            have hc2 : (']' :: r2).count '"' = r2.count '"' := count_cons_ne_quote (by decide)
            rw [← hr]
            omega
          · cases hpp : parseItems (parseV n) n r0 with
            | none => rw [hpp] at h; exact absurd h (by simp)
            | some lr =>
              obtain ⟨l, r2⟩ := lr
              rw [hpp] at h
              have h3 : Json.arr l = v ∧ r2 = r := by simpa using h
              obtain ⟨hv, hr⟩ := h3
              obtain ⟨hpar, hbs2⟩ := parseItems_quotes hQ n hbsr0 hpp
              refine ⟨?_, hr ▸ hbs2⟩
              rw [← hr]
              omega
        · rw [if_neg h2] at h
          by_cases h3 : (c == '"') = true
          · rw [if_pos h3] at h
            have hc : c = '"' := by simpa using h3
            cases hps : parseStr r0 with
            | none => rw [hps] at h; exact absurd h (by simp)
            | some pr =>
              obtain ⟨sv, r2⟩ := pr
              rw [hps] at h
              have h4 : Json.str sv = v ∧ r2 = r := by simpa using h
              obtain ⟨hv, hr⟩ := h4
              obtain ⟨hcnt, hbs2⟩ := parseStr_quotes hbsr0 hps
              refine ⟨?_, hr ▸ hbs2⟩
              have hcc : (c :: r0).count '"' = r0.count '"' + 1 := by
                rw [hc]; simp [List.count_cons]
              rw [← hr]
              omega
          · rw [if_neg h3] at h
            by_cases h4 : (c == 't') = true
            · rw [if_pos h4] at h
              split at h
              · next hpre =>
                have h5 : Json.bool true = v ∧ r0.drop 3 = r := by simpa using h
                obtain ⟨hv, hr⟩ := h5
                obtain ⟨-, hdec⟩ := prefixTok_decomp hpre
                have hsplit : r0 = ['r', 'u', 'e'] ++ r0.drop 3 := by
                  simpa using hdec
                have hcnt : r0.count '"' = (r0.drop 3).count '"' := by
                  conv_lhs => rw [hsplit]
                  simp [List.count_append]
                have hbs2 : noBS (r0.drop 3) = true := by
                  have := hbsr0
                  rw [hsplit, noBS_append, Bool.and_eq_true] at this
                  exact this.2
                refine ⟨?_, hr ▸ hbs2⟩
                have hcc : (c :: r0).count '"' = r0.count '"' := by
                  have hc : c = 't' := by simpa using h4
                  rw [hc]; exact count_cons_ne_quote (by decide)
                rw [← hr]
                omega
              · exact absurd h (by simp)
            · rw [if_neg h4] at h
              by_cases h5 : (c == 'f') = true
              · rw [if_pos h5] at h
                split at h
                · next hpre =>
                  have h6 : Json.bool false = v ∧ r0.drop 4 = r := by simpa using h
                  obtain ⟨hv, hr⟩ := h6
                  obtain ⟨-, hdec⟩ := prefixTok_decomp hpre
                  have hsplit : r0 = ['a', 'l', 's', 'e'] ++ r0.drop 4 := by
                    simpa using hdec
                  have hcnt : r0.count '"' = (r0.drop 4).count '"' := by
                    conv_lhs => rw [hsplit]
                    simp [List.count_append]
                  have hbs2 : noBS (r0.drop 4) = true := by
                    have := hbsr0
                    rw [hsplit, noBS_append, Bool.and_eq_true] at this
                    exact this.2
                  refine ⟨?_, hr ▸ hbs2⟩
                  have hcc : (c :: r0).count '"' = r0.count '"' := by
                    have hc : c = 'f' := by simpa using h5
                    rw [hc]; exact count_cons_ne_quote (by decide)
                  rw [← hr]
                  omega
                · exact absurd h (by simp)
              · rw [if_neg h5] at h
                by_cases h6 : (c == 'n') = true
                · rw [if_pos h6] at h
                  split at h
                  · next hpre =>
                    have h7 : Json.null = v ∧ r0.drop 3 = r := by simpa using h
                    obtain ⟨hv, hr⟩ := h7
                    obtain ⟨-, hdec⟩ := prefixTok_decomp hpre
                    have hsplit : r0 = ['u', 'l', 'l'] ++ r0.drop 3 := by
                      simpa using hdec
                    have hcnt : r0.count '"' = (r0.drop 3).count '"' := by
                      conv_lhs => rw [hsplit]
                      simp [List.count_append]
                    have hbs2 : noBS (r0.drop 3) = true := by
                      have := hbsr0
                      rw [hsplit, noBS_append, Bool.and_eq_true] at this
                      exact this.2
                    refine ⟨?_, hr ▸ hbs2⟩
                    have hcc : (c :: r0).count '"' = r0.count '"' := by
                      have hc : c = 'n' := by simpa using h6
                      rw [hc]; exact count_cons_ne_quote (by decide)
                    rw [← hr]
                    omega
                  · exact absurd h (by simp)
                · rw [if_neg h6] at h
                  cases hpi : parseIntTok (c :: r0) with
                  | none => rw [hpi] at h; exact absurd h (by simp)
                  | some ir =>
                    obtain ⟨i, r2⟩ := ir
                    rw [hpi] at h
                    have h7 : Json.num i = v ∧ r2 = r := by simpa using h
                    obtain ⟨hv, hr⟩ := h7
                    obtain ⟨pre, hpre, hall⟩ := parseIntTok_consumes hpi
                    have hcnt : (c :: r0).count '"' = r2.count '"' := by
                      rw [hpre, List.count_append, digitDash_no_quote hall]
                      omega
                    have hbs2 : noBS r2 = true := by
                      have hb : noBS (c :: r0) = true := hbsw
                      rw [hpre, noBS_append, Bool.and_eq_true] at hb
                      exact hb.2
                    refine ⟨?_, hr ▸ hbs2⟩
                    rw [← hr]
                    omega

/-- On backslash-free text with an odd number of double quotes, the
modelled `json.loads` raises (returns `none`): a successful parse always
consumes quotes in pairs and leaves only whitespace. -/
theorem json_loads_none_of_odd {s : Str} (hbs : noBS s = true)
    (hodd : s.count '"' % 2 = 1) : json_loads s = none := by
  cases hjl : json_loads s with
  | none => rfl
  | some v =>
    exfalso
    unfold json_loads at hjl
    split at hjl
    · next v2 rest hpv =>
      split at hjl
      · next hemp =>
        obtain ⟨hpar, hbs2⟩ := parseV_quotes _ hbs hpv
        have hrest : (skipWs rest).count '"' = 0 := by
          rw [List.isEmpty_iff] at hemp
          rw [hemp]
          rfl
        have hzero : rest.count '"' = 0 := by rw [← skipWs_count rest, hrest]
        omega
      · exact absurd hjl (by simp)
    · exact absurd hjl (by simp)

/-! ## Round trip: the parser recovers canonically serialized values -/

theorem isPrefixOf_append_self {a b : Str} : a.isPrefixOf (a ++ b) = true := by
  rw [List.isPrefixOf_iff_prefix]
  exact ⟨b, rfl⟩

theorem serInt_head (i : Int) :
    ∃ c t, serInt i = c :: t ∧ (c == '-' || c.isDigit) = true := by
  cases i with
  | ofNat n =>
    cases hsn : serNat n with
    | nil => exact absurd hsn (serNat_ne_nil _)
    | cons c t =>
      have hall : (c :: t).all Char.isDigit = true := hsn ▸ serNat_all_digit n
      simp only [List.all_cons, Bool.and_eq_true] at hall
      exact ⟨c, t, by simp [serInt, hsn], by simp [hall.1]⟩
  | negSucc m => exact ⟨'-', serNat (m + 1), by simp [serInt], by decide⟩

theorem numHead_facts {c : Char} (h : (c == '-' || c.isDigit) = true) :
    jws c = false ∧ (c == '{') = false ∧ (c == '[') = false ∧ (c == '"') = false ∧
      (c == 't') = false ∧ (c == 'f') = false ∧ (c == 'n') = false ∧
      (c == ']') = false ∧ (c == '}') = false := by
  simp only [Bool.or_eq_true] at h
  rcases h with h | h
  · have hc : c = '-' := by simpa using h
    subst hc
    refine ⟨by decide, by decide, by decide, by decide, by decide, by decide, by decide,
      by decide, by decide⟩
  · refine ⟨?_, beq_false_of_pred h (by decide), beq_false_of_pred h (by decide),
      beq_false_of_pred h (by decide), beq_false_of_pred h (by decide),
      beq_false_of_pred h (by decide), beq_false_of_pred h (by decide),
      beq_false_of_pred h (by decide), beq_false_of_pred h (by decide)⟩
    have w1 : (c == ' ') = false := beq_false_of_pred h (by decide)
    have w2 : (c == '\t') = false := beq_false_of_pred h (by decide)
    have w3 : (c == '\n') = false := beq_false_of_pred h (by decide)
    have w4 : (c == '\r') = false := beq_false_of_pred h (by decide)
    simp [jws, w1, w2, w3, w4]

theorem serVal_head_facts (j : Json) :
    ∃ c t, serVal j = c :: t ∧ jws c = false ∧ (c == ']') = false ∧ (c == '}') = false := by
  cases j with
  | null => exact ⟨'n', ['u', 'l', 'l'], by simp [serVal], by decide, by decide, by decide⟩
  | bool b =>
    cases b with
    | true => exact ⟨'t', ['r', 'u', 'e'], by simp [serVal], by decide, by decide, by decide⟩
    | false => exact ⟨'f', ['a', 'l', 's', 'e'], by simp [serVal], by decide, by decide, by decide⟩
  | num i =>
    obtain ⟨c, t, hct, hh⟩ := serInt_head i
    obtain ⟨w, _, _, _, _, _, _, hne1, hne2⟩ := numHead_facts hh
    exact ⟨c, t, by simp [serVal, hct], w, hne1, hne2⟩
  | str s => exact ⟨'"', s ++ ['"'], by simp [serVal], by decide, by decide, by decide⟩
  | arr l => exact ⟨'[', serList l ++ [']'], by simp [serVal], by decide, by decide, by decide⟩
  | obj m => exact ⟨'{', serKVs m ++ ['}'], by simp [serVal], by decide, by decide, by decide⟩

theorem jsize_pos : ∀ j : Json, 1 ≤ jsize j := by
  intro j
  cases j <;> simp [jsize]

mutual
theorem jsize_le_serLen : ∀ j : Json, jsize j ≤ (serVal j).length
  | .null => by simp [jsize, serVal]
  | .bool b => by cases b <;> simp [jsize, serVal]
  | .num i => by
    obtain ⟨c, t, hct, _⟩ := serInt_head i
    simp [jsize, serVal, hct]
  | .str s => by simp [jsize, serVal]
  | .arr l => by
    have h := jsizeL_le_serLen l
    simp only [jsize, serVal, List.length_cons, List.length_append]
    omega
  | .obj m => by
    have h := jsizeK_le_serLen m
    simp only [jsize, serVal, List.length_cons, List.length_append]
    omega

theorem jsizeL_le_serLen : ∀ l : JsonList, jsizeL l ≤ (serList l).length + 1
  | .nil => by simp [jsizeL, serList]
  | .cons v .nil => by
    have h := jsize_le_serLen v
    simp only [jsizeL, serList]
    omega
  | .cons v (.cons w t) => by
    have h1 := jsize_le_serLen v
    have h2 := jsizeL_le_serLen (JsonList.cons w t)
    simp only [jsizeL, serList, List.length_append, List.length_cons] at h2 ⊢
    omega

theorem jsizeK_le_serLen : ∀ m : JsonKVs, jsizeK m ≤ (serKVs m).length + 1
  | .nil => by simp [jsizeK, serKVs]
  | .cons k v .nil => by
    have h := jsize_le_serLen v
    simp only [jsizeK, serKVs, List.length_append, List.length_cons]
    omega
  | .cons k v (.cons k2 v2 t) => by
    have h1 := jsize_le_serLen v
    have h2 := jsizeK_le_serLen (JsonKVs.cons k2 v2 t)
    simp only [jsizeK, serKVs, List.length_append, List.length_cons] at h2 ⊢
    omega
end

theorem serList_cons_decomp (v : Json) (t : JsonList) :
    ∃ Q, serList (JsonList.cons v t) = serVal v ++ Q := by
  cases t with
  | nil => exact ⟨[], by simp [serList]⟩
  | cons w t2 => exact ⟨',' :: serList (JsonList.cons w t2), by simp [serList]⟩

theorem parseItems_ser {pv : Str → Option (Json × Str)} :
    ∀ (n : Nat) {l : JsonList} {rest : Str},
      (∀ j r2, jsonSafe j = true → jsize j ≤ n → delimOk r2 = true →
        pv (serVal j ++ r2) = some (j, r2)) →
      jsonSafeL l = true → l ≠ JsonList.nil → jsizeL l ≤ n → delimOk rest = true →
      parseItems pv n (serList l ++ ']' :: rest) = some (l, rest) := by
  intro n
  induction n with
  | zero =>
    intro l rest _ _ hne hsz _
    exfalso
    cases l with
    | nil => exact hne rfl
    | cons v t =>
      simp only [jsizeL] at hsz
      omega
  | succ n ihn =>
    intro l rest hp hsafe hne hsz hrest
    cases l with
    | nil => exact absurd rfl hne
    | cons v t =>
      simp only [jsonSafeL, Bool.and_eq_true] at hsafe
      simp only [jsizeL] at hsz
      have hszv : jsize v ≤ n + 1 := by omega
      cases t with
      | nil =>
        have hpv := hp v (']' :: rest) hsafe.1 hszv (by rfl)
        simp only [serList, parseItems, hpv,
          skipWs_cons_false (show jws ']' = false by decide)]
      | cons w t2 =>
        have hR : serList (JsonList.cons v (JsonList.cons w t2)) ++ ']' :: rest
            = serVal v ++ ',' :: (serList (JsonList.cons w t2) ++ ']' :: rest) := by
          simp [serList]
        have hpv := hp v (',' :: (serList (JsonList.cons w t2) ++ ']' :: rest))
          hsafe.1 hszv (by rfl)
        have hrec := @ihn (JsonList.cons w t2) rest
          (fun j r2 hs hz hd => hp j r2 hs (by omega) hd)
          hsafe.2 (by simp) (by omega) hrest
        rw [hR]
        simp only [parseItems, hpv,
          skipWs_cons_false (show jws ',' = false by decide), hrec]
        rfl

theorem parsePairs_ser {pv : Str → Option (Json × Str)} :
    ∀ (n : Nat) {m : JsonKVs} {rest : Str},
      (∀ j r2, jsonSafe j = true → jsize j ≤ n → delimOk r2 = true →
        pv (serVal j ++ r2) = some (j, r2)) →
      jsonSafeK m = true → m ≠ JsonKVs.nil → jsizeK m ≤ n → delimOk rest = true →
      parsePairs pv n (serKVs m ++ '}' :: rest) = some (m, rest) := by
  intro n
  induction n with
  | zero =>
    intro m rest _ _ hne hsz _
    exfalso
    cases m with
    | nil => exact hne rfl
    | cons k v t =>
      simp only [jsizeK] at hsz
      omega
  | succ n ihn =>
    intro m rest hp hsafe hne hsz hrest
    cases m with
    | nil => exact absurd rfl hne
    | cons k v t =>
      simp only [jsonSafeK, Bool.and_eq_true] at hsafe
      simp only [jsizeK] at hsz
      have hszv : jsize v ≤ n + 1 := by omega
      cases t with
      | nil =>
        have hs : serKVs (JsonKVs.cons k v JsonKVs.nil) ++ '}' :: rest
            = '"' :: (k ++ '"' :: ':' :: (serVal v ++ '}' :: rest)) := by
          simp [serKVs]
        have hpv := hp v ('}' :: rest) hsafe.1.2 hszv (by rfl)
        rw [hs]
        simp only [parsePairs, skipWs_cons_false (show jws '"' = false by decide)]
        rw [parseStr_ser hsafe.1.1]
        simp only [skipWs_cons_false (show jws ':' = false by decide), hpv,
          skipWs_cons_false (show jws '}' = false by decide)]
      | cons k2 v2 t2 =>
        have hs : serKVs (JsonKVs.cons k v (JsonKVs.cons k2 v2 t2)) ++ '}' :: rest
            = '"' :: (k ++ '"' :: ':' ::
              (serVal v ++ ',' :: (serKVs (JsonKVs.cons k2 v2 t2) ++ '}' :: rest))) := by
          simp [serKVs]
        have hpv := hp v (',' :: (serKVs (JsonKVs.cons k2 v2 t2) ++ '}' :: rest))
          hsafe.1.2 hszv (by rfl)
        have hrec := @ihn (JsonKVs.cons k2 v2 t2) rest
          (fun j r2 hs2 hz hd => hp j r2 hs2 (by omega) hd)
          hsafe.2 (by simp) (by omega) hrest
        rw [hs]
        simp only [parsePairs, skipWs_cons_false (show jws '"' = false by decide)]
        rw [parseStr_ser hsafe.1.1]
        simp only [skipWs_cons_false (show jws ':' = false by decide), hpv,
          skipWs_cons_false (show jws ',' = false by decide), hrec]
        rfl

theorem parseV_ser :
    ∀ (fuel : Nat) {j : Json} {rest : Str}, jsonSafe j = true → jsize j ≤ fuel →
      delimOk rest = true → parseV fuel (serVal j ++ rest) = some (j, rest) := by
  intro fuel
  induction fuel with
  | zero =>
    intro j rest _ hsz _
    exfalso
    have := jsize_pos j
    omega
  | succ n ih =>
    intro j rest hsafe hsz hrest
    cases j with
    | null =>
      have hser : serVal Json.null ++ rest = 'n' :: (['u', 'l', 'l'] ++ rest) := by
        simp [serVal]
      rw [hser]
      simp only [parseV]
      rw [skipWs_cons_false (by decide)]
      simp [isPrefixOf_append_self, List.drop_left']
    | bool b =>
      cases b with
      | true =>
        have hser : serVal (Json.bool true) ++ rest = 't' :: (['r', 'u', 'e'] ++ rest) := by
          simp [serVal]
        rw [hser]
        simp only [parseV]
        rw [skipWs_cons_false (by decide)]
        simp [isPrefixOf_append_self, List.drop_left']
      | false =>
        have hser : serVal (Json.bool false) ++ rest = 'f' :: (['a', 'l', 's', 'e'] ++ rest) := by
          simp [serVal]
        rw [hser]
        simp only [parseV]
        rw [skipWs_cons_false (by decide)]
        simp [isPrefixOf_append_self, List.drop_left']
    | str s' =>
      simp only [jsonSafe] at hsafe
      have hser : serVal (Json.str s') ++ rest = '"' :: (s' ++ '"' :: rest) := by
        simp [serVal]
      rw [hser]
      simp only [parseV]
      rw [skipWs_cons_false (by decide)]
      simp [parseStr_ser hsafe]
    | num i =>
      obtain ⟨c, t, hct, hh⟩ := serInt_head i
      obtain ⟨w, f1, f2, f3, f4, f5, f6, _, _⟩ := numHead_facts hh
      have hser : serVal (Json.num i) ++ rest = c :: (t ++ rest) := by
        simp [serVal, hct]
      rw [hser]
      simp only [parseV]
      rw [skipWs_cons_false w]
      simp only [f1, f2, f3, f4, f5, f6, Bool.false_eq_true, if_false]
      have hback : c :: (t ++ rest) = serInt i ++ rest := by simp [hct]
      rw [hback, parseIntTok_ser hrest]
      rfl
    | arr l =>
      simp only [jsonSafe] at hsafe
      simp only [jsize] at hsz
      have hser : serVal (Json.arr l) ++ rest = '[' :: (serList l ++ ']' :: rest) := by
        simp [serVal]
      rw [hser]
      simp only [parseV]
      rw [skipWs_cons_false (by decide)]
      simp only [show ('[' == '{') = false from by decide, Bool.false_eq_true, if_false,
        show ('[' == '[') = true from by decide, if_true]
      cases l with
      | nil =>
        simp only [serList, List.nil_append]
        rw [skipWs_cons_false (by decide)]
        rfl
      | cons v t =>
        obtain ⟨Q, hQ⟩ := serList_cons_decomp v t
        obtain ⟨c0, t0, hct0, hw0, hne0, _⟩ := serVal_head_facts v
        have hform : serList (JsonList.cons v t) ++ ']' :: rest
            = c0 :: (t0 ++ Q ++ ']' :: rest) := by
          rw [hQ, hct0]
          simp
        rw [hform]
        rw [skipWs_cons_false hw0]
        have hitems := @parseItems_ser (parseV n) n (JsonList.cons v t) rest
          (fun j r2 hs hz hd => ih hs hz hd)
          hsafe (by simp) (by omega) hrest
        rw [hform] at hitems
        split
        · next r2 heq =>
          exfalso
          have : c0 = ']' := by
            have := heq
            simp only [List.cons.injEq] at this
            exact this.1
          rw [this] at hne0
          simp at hne0
        · rw [hitems]
          rfl
    | obj m =>
      simp only [jsonSafe] at hsafe
      simp only [jsize] at hsz
      have hser : serVal (Json.obj m) ++ rest = '{' :: (serKVs m ++ '}' :: rest) := by
        simp [serVal]
      rw [hser]
      simp only [parseV]
      rw [skipWs_cons_false (by decide)]
      simp only [show ('{' == '{') = true from by decide, if_true]
      cases m with
      | nil =>
        simp only [serKVs, List.nil_append]
        rw [skipWs_cons_false (by decide)]
        rfl
      | cons k v t =>
        have hform : serKVs (JsonKVs.cons k v t) ++ '}' :: rest
            = '"' :: ((k ++ '"' :: ':' :: serVal v ++ serKVsTail t) ++ '}' :: rest) := by
          cases t <;> simp [serKVs, serKVsTail]
        have hpairs := @parsePairs_ser (parseV n) n (JsonKVs.cons k v t) rest
          (fun j r2 hs hz hd => ih hs hz hd)
          hsafe (by simp) (by omega) hrest
        rw [hform]
        rw [skipWs_cons_false (by decide)]
        rw [hform] at hpairs
        split
        · next r2 heq =>
          exfalso
          have : ('"' : Char) = '}' := by
            have := heq
            simp only [List.cons.injEq] at this
            exact this.1
          exact absurd this (by decide)
        · rw [hpairs]
          rfl

/-- Round trip at the `json.loads` boundary. -/
theorem json_loads_ser {j : Json} (h : jsonSafe j = true) : json_loads (serVal j) = some j := by
  unfold json_loads
  have hp := @parseV_ser ((serVal j).length + 1) j []
    h (le_trans (jsize_le_serLen j) (by omega)) (by rfl)
  rw [List.append_nil] at hp
  rw [hp]
  simp [skipWs]

/-! ## Character facts about serialized values -/

/-- Characters that do not interfere with fence stripping or quote
counting: no backtick, no backslash. -/
def cleanChar (c : Char) : Bool := !(c == btick) && !(c == '\\')

theorem goodStrChar_cleanChar {c : Char} (h : goodStrChar c = true) : cleanChar c = true := by
  simp only [cleanChar, Bool.and_eq_true]
  exact ⟨by simpa using goodStrChar_not_tick h, by simpa using goodStrChar_not_bs h⟩

theorem digit_cleanChar {c : Char} (h : c.isDigit = true) : cleanChar c = true := by
  simp only [cleanChar, Bool.and_eq_true]
  exact ⟨by simpa using beq_false_of_pred h (show Char.isDigit btick = false by decide),
    by simpa using beq_false_of_pred h (by decide)⟩

theorem serNat_cleanChars (n : Nat) : (serNat n).all cleanChar = true :=
  all_mono (fun c hc => digit_cleanChar hc) (serNat_all_digit n)

theorem serInt_cleanChars (i : Int) : (serInt i).all cleanChar = true := by
  cases i with
  | ofNat n => exact serNat_cleanChars n
  | negSucc m =>
    simp only [serInt, List.all_cons, Bool.and_eq_true]
    exact ⟨by decide, serNat_cleanChars (m + 1)⟩

mutual
theorem serVal_cleanChars : ∀ j : Json, jsonSafe j = true → (serVal j).all cleanChar = true
  | .null => fun _ => by simp +decide [serVal]
  | .bool b => fun _ => by cases b <;> simp +decide [serVal]
  | .num i => fun _ => by simpa [serVal] using serInt_cleanChars i
  | .str s => fun h => by
    simp only [jsonSafe] at h
    have hs := all_mono (fun c hc => goodStrChar_cleanChar hc) h
    simp +decide [serVal, List.all_cons, List.all_append, hs]
  | .arr l => fun h => by
    simp only [jsonSafe] at h
    have hs := serList_cleanChars l h
    simp +decide [serVal, List.all_cons, List.all_append, hs]
  | .obj m => fun h => by
    simp only [jsonSafe] at h
    have hs := serKVs_cleanChars m h
    simp +decide [serVal, List.all_cons, List.all_append, hs]

theorem serList_cleanChars : ∀ l : JsonList, jsonSafeL l = true → (serList l).all cleanChar = true
  | .nil => fun _ => by simp [serList]
  | .cons v .nil => fun h => by
    simp only [jsonSafeL, Bool.and_eq_true] at h
    simpa [serList] using serVal_cleanChars v h.1
  | .cons v (.cons w t) => fun h => by
    simp only [jsonSafeL, Bool.and_eq_true] at h
    have h1 := serVal_cleanChars v h.1
    have h2 := serList_cleanChars (JsonList.cons w t) (by simp [jsonSafeL, h.2.1, h.2.2])
    simp +decide [serList, List.all_cons, List.all_append, h1, h2]

theorem serKVs_cleanChars : ∀ m : JsonKVs, jsonSafeK m = true → (serKVs m).all cleanChar = true
  | .nil => fun _ => by simp [serKVs]
  | .cons k v .nil => fun h => by
    simp only [jsonSafeK, Bool.and_eq_true] at h
    have h1 := all_mono (fun c hc => goodStrChar_cleanChar hc) h.1.1
    have h2 := serVal_cleanChars v h.1.2
    simp +decide [serKVs, List.all_cons, List.all_append, h1, h2]
  | .cons k v (.cons k2 v2 t) => fun h => by
    simp only [jsonSafeK, Bool.and_eq_true] at h
    have h1 := all_mono (fun c hc => goodStrChar_cleanChar hc) h.1.1
    have h2 := serVal_cleanChars v h.1.2
    have h3 := serKVs_cleanChars (JsonKVs.cons k2 v2 t)
      (by simp [jsonSafeK, h.2.1.1, h.2.1.2, h.2.2])
    simp +decide [serKVs, List.all_cons, List.all_append, h1, h2, h3]
end

theorem cleanChars_no_tick {s : Str} (h : s.all cleanChar = true) : btick ∉ s := by
  intro hm
  rw [List.all_eq_true] at h
  have := h btick hm
  simp [cleanChar] at this

theorem cleanChars_noBS {s : Str} (h : s.all cleanChar = true) : noBS s = true :=
  all_mono (fun c hc => by
    simp only [cleanChar, Bool.and_eq_true] at hc
    simpa using hc.2) h

theorem goodStr_quote_count {s : Str} (h : goodStr s = true) : s.count '"' = 0 :=
  count_zero_of_all (show goodStrChar '"' = false by decide) h

theorem digits_quote_count {s : Str} (h : s.all Char.isDigit = true) : s.count '"' = 0 :=
  count_zero_of_all (by decide) h

theorem serInt_quote_count (i : Int) : (serInt i).count '"' = 0 := by
  cases i with
  | ofNat n => exact digits_quote_count (serNat_all_digit n)
  | negSucc m =>
    simp only [serInt]
    rw [count_cons_ne_quote (by decide)]
    exact digits_quote_count (serNat_all_digit (m + 1))

mutual
theorem serVal_quote_even : ∀ j : Json, jsonSafe j = true → (serVal j).count '"' % 2 = 0
  | .null => fun _ => by simp +decide [serVal]
  | .bool b => fun _ => by cases b <;> simp +decide [serVal]
  | .num i => fun _ => by simp [serVal, serInt_quote_count i]
  | .str s => fun h => by
    simp only [jsonSafe] at h
    simp +decide [serVal, List.count_cons, List.count_append, goodStr_quote_count h]
  | .arr l => fun h => by
    simp only [jsonSafe] at h
    have hl := serList_quote_even l h
    simp +decide only [serVal, List.count_cons, List.count_append, List.count_nil, if_true, if_false]
    omega
  | .obj m => fun h => by
    simp only [jsonSafe] at h
    have hm := serKVs_quote_even m h
    simp +decide only [serVal, List.count_cons, List.count_append, List.count_nil, if_true, if_false]
    omega

theorem serList_quote_even : ∀ l : JsonList, jsonSafeL l = true → (serList l).count '"' % 2 = 0
  | .nil => fun _ => by simp [serList]
  | .cons v .nil => fun h => by
    simp only [jsonSafeL, Bool.and_eq_true] at h
    simpa [serList] using serVal_quote_even v h.1
  | .cons v (.cons w t) => fun h => by
    simp only [jsonSafeL, Bool.and_eq_true] at h
    have h1 := serVal_quote_even v h.1
    have h2 := serList_quote_even (JsonList.cons w t) (by simp [jsonSafeL, h.2.1, h.2.2])
    simp +decide only [serList, List.count_append, List.count_cons, if_true, if_false] at h1 h2 ⊢
    omega

theorem serKVs_quote_even : ∀ m : JsonKVs, jsonSafeK m = true → (serKVs m).count '"' % 2 = 0
  | .nil => fun _ => by simp [serKVs]
  | .cons k v .nil => fun h => by
    simp only [jsonSafeK, Bool.and_eq_true] at h
    have h1 := serVal_quote_even v h.1.2
    have h2 := goodStr_quote_count h.1.1
    simp +decide only [serKVs, List.count_append, List.count_cons, h2, if_true, if_false]
    omega
  | .cons k v (.cons k2 v2 t) => fun h => by
    simp only [jsonSafeK, Bool.and_eq_true] at h
    have h1 := serVal_quote_even v h.1.2
    have h2 := goodStr_quote_count h.1.1
    have h3 := serKVs_quote_even (JsonKVs.cons k2 v2 t)
      (by simp [jsonSafeK, h.2.1.1, h.2.1.2, h.2.2])
    simp +decide only [serKVs, List.count_append, List.count_cons, h2, if_true, if_false] at h3 ⊢
    omega
end

/-! ## Fence stripping -/

theorem pyStrip_eq_self_of_ends {s : Str}
    (hhead : ∃ c t, s = c :: t ∧ pyws c = false)
    (hlast : ∃ y b, s = y ++ [b] ∧ pyws b = false) : pyStrip s = s := by
  obtain ⟨c, t, hct, hc⟩ := hhead
  obtain ⟨y, b, hyb, hb⟩ := hlast
  have h1 : pyRstrip s = s := by rw [hyb]; exact pyRstrip_concat_false hb
  rw [pyStrip, h1, hct]
  exact pyLstrip_cons_false hc

theorem pyReplace_prefix_match {p : Char} {pt rep x : Str} :
    pyReplace (p :: pt) rep ((p :: pt) ++ x) = rep ++ pyReplace (p :: pt) rep x := by
  rw [show (p :: pt) ++ x = p :: (pt ++ x) from rfl]
  rw [pyReplace]
  rw [dif_pos ⟨by simp, by
    rw [show p :: (pt ++ x) = (p :: pt) ++ x from rfl]
    exact isPrefixOf_append_self⟩]
  congr 1
  rw [show p :: (pt ++ x) = (p :: pt) ++ x from rfl]
  rw [List.drop_left]

theorem pyReplace_f7_fence3 : pyReplace fenceJson7 [] fence3 = fence3 := by
  simp +decide [pyReplace, fenceJson7, fence3, List.isPrefixOf]

theorem pyReplace_fence3_self : pyReplace fence3 [] fence3 = [] := by
  have h := @pyReplace_prefix_match btick [btick, btick] [] []
  rw [show btick :: [btick, btick] = fence3 from rfl] at h
  simpa [pyReplace] using h

theorem pyReplace_f7_skip_ticks {z : Str} :
    pyReplace fenceJson7 [] (btick :: btick :: btick :: '\n' :: z)
      = btick :: btick :: btick :: '\n' :: pyReplace fenceJson7 [] z := by
  simp +decide [pyReplace, fenceJson7, fence3, List.isPrefixOf]

theorem pyStrip_newline_wrap {body : Str}
    (hhead : ∃ c t, body = c :: t ∧ pyws c = false)
    (hlast : ∃ y b, body = y ++ [b] ∧ pyws b = false) :
    pyStrip ('\n' :: (body ++ ['\n'])) = body := by
  obtain ⟨c, t, hct, hc⟩ := hhead
  obtain ⟨y, b, hyb, hb⟩ := hlast
  have h1 : pyRstrip ('\n' :: (body ++ ['\n'])) = pyRstrip ('\n' :: body) := by
    rw [show '\n' :: (body ++ ['\n']) = ('\n' :: body) ++ ['\n'] from by simp]
    exact pyRstrip_concat_true (by decide)
  have h2 : pyRstrip ('\n' :: body) = '\n' :: body := by
    rw [hyb, show '\n' :: (y ++ [b]) = ('\n' :: y) ++ [b] from by simp]
    rw [pyRstrip_concat_false hb]
  rw [pyStrip, h1, h2, pyLstrip_cons_true (by decide), hct]
  exact pyLstrip_cons_false hc

theorem not_mem_concat_nl {a : Char} {s : Str} (h : a ∉ s) (hne : ¬ a = '\n') :
    a ∉ (s ++ ['\n']) := by
  intro hm
  rcases List.mem_append.mp hm with hm | hm
  · exact h hm
  · simp only [List.mem_singleton] at hm
    exact hne hm

theorem not_mem_nl_wrap {a : Char} {s : Str} (h : a ∉ s) (hne : ¬ a = '\n') :
    a ∉ ('\n' :: s ++ ['\n']) := by
  intro hm
  simp only [List.cons_append, List.mem_cons] at hm
  rcases hm with hm | hm
  · exact hne hm
  · exact not_mem_concat_nl h hne hm

/-- An unfenced backtick-free text passes the fence-stripping step
unchanged. -/
theorem clean_unfenced {s : Str} (htick : btick ∉ s)
    (hhead : ∃ c t, s = c :: t ∧ pyws c = false)
    (hlast : ∃ y b, s = y ++ [b] ∧ pyws b = false) :
    pyStrip (pyReplace fence3 [] (pyReplace fenceJson7 [] s)) = s := by
  rw [show fenceJson7 = btick :: (btick :: btick :: ['j', 's', 'o', 'n']) from rfl,
    pyReplace_of_not_mem htick,
    show fence3 = btick :: [btick, btick] from rfl,
    pyReplace_of_not_mem htick]
  exact pyStrip_eq_self_of_ends hhead hlast

/-- A `json`-tagged fence around a backtick-free text is stripped to the
body. -/
theorem clean_fenceJson {s : Str} (htick : btick ∉ s)
    (hhead : ∃ c t, s = c :: t ∧ pyws c = false)
    (hlast : ∃ y b, s = y ++ [b] ∧ pyws b = false) :
    pyStrip (pyReplace fence3 [] (pyReplace fenceJson7 []
      (fenceJson7 ++ '\n' :: s ++ '\n' :: fence3))) = s := by
  have hseg : btick ∉ ('\n' :: s ++ ['\n']) := not_mem_nl_wrap htick (by decide)
  have step1 : pyReplace fenceJson7 [] (fenceJson7 ++ '\n' :: s ++ '\n' :: fence3)
      = '\n' :: s ++ '\n' :: fence3 := by
    rw [show fenceJson7 = btick :: (btick :: btick :: ['j', 's', 'o', 'n']) from rfl]
    rw [List.append_assoc]
    rw [pyReplace_prefix_match, List.nil_append]
    rw [show ('\n' :: s ++ '\n' :: fence3) = ('\n' :: s ++ ['\n']) ++ fence3 from by simp]
    rw [pyReplace_append_left hseg]
    rw [show btick :: (btick :: btick :: ['j', 's', 'o', 'n']) = fenceJson7 from rfl]
    rw [pyReplace_f7_fence3]
  have step2 : pyReplace fence3 [] ('\n' :: s ++ '\n' :: fence3) = '\n' :: s ++ ['\n'] := by
    rw [show ('\n' :: s ++ '\n' :: fence3) = ('\n' :: s ++ ['\n']) ++ fence3 from by simp]
    rw [show fence3 = btick :: [btick, btick] from rfl]
    rw [pyReplace_append_left hseg]
    rw [show btick :: [btick, btick] = fence3 from rfl, pyReplace_fence3_self]
    simp
  rw [step1, step2]
  rw [show '\n' :: s ++ ['\n'] = '\n' :: (s ++ ['\n']) from by simp]
  exact pyStrip_newline_wrap hhead hlast

/-- An untagged fence around a backtick-free text is stripped to the
body. -/
theorem clean_fenceBare {s : Str} (htick : btick ∉ s)
    (hhead : ∃ c t, s = c :: t ∧ pyws c = false)
    (hlast : ∃ y b, s = y ++ [b] ∧ pyws b = false) :
    pyStrip (pyReplace fence3 [] (pyReplace fenceJson7 []
      (fence3 ++ '\n' :: s ++ '\n' :: fence3))) = s := by
  have hseg : btick ∉ ('\n' :: s ++ ['\n']) := not_mem_nl_wrap htick (by decide)
  have hseg2 : btick ∉ (s ++ ['\n']) := not_mem_concat_nl htick (by decide)
  have step1 : pyReplace fenceJson7 [] (fence3 ++ '\n' :: s ++ '\n' :: fence3)
      = fence3 ++ '\n' :: s ++ '\n' :: fence3 := by
    rw [show fence3 ++ '\n' :: s ++ '\n' :: fence3
        = btick :: btick :: btick :: '\n' :: ((s ++ ['\n']) ++ fence3) from by simp [fence3]]
    rw [pyReplace_f7_skip_ticks]
    rw [show fenceJson7 = btick :: (btick :: btick :: ['j', 's', 'o', 'n']) from rfl]
    rw [pyReplace_append_left hseg2]
    rw [show btick :: (btick :: btick :: ['j', 's', 'o', 'n']) = fenceJson7 from rfl]
    rw [pyReplace_f7_fence3]
  have step2 : pyReplace fence3 [] (fence3 ++ '\n' :: s ++ '\n' :: fence3)
      = '\n' :: s ++ ['\n'] := by
    rw [show fence3 ++ '\n' :: s ++ '\n' :: fence3 = fence3 ++ (('\n' :: s ++ ['\n']) ++ fence3) from by simp]
    rw [show fence3 = btick :: [btick, btick] from rfl]
    rw [pyReplace_prefix_match, List.nil_append]
    rw [pyReplace_append_left hseg]
    rw [show btick :: [btick, btick] = fence3 from rfl, pyReplace_fence3_self]
    simp
  rw [step1, step2]
  rw [show '\n' :: s ++ ['\n'] = '\n' :: (s ++ ['\n']) from by simp]
  exact pyStrip_newline_wrap hhead hlast


/-! ## Whitespace-free ends of serialized values -/

theorem pyws_of_digit {c : Char} (h : c.isDigit = true) : pyws c = false := by
  have w1 : (c == ' ') = false := beq_false_of_pred h (by decide)
  have w2 : (c == '\t') = false := beq_false_of_pred h (by decide)
  have w3 : (c == '\n') = false := beq_false_of_pred h (by decide)
  have w4 : (c == '\r') = false := beq_false_of_pred h (by decide)
  have w5 : (c == Char.ofNat 11) = false := beq_false_of_pred h (by decide)
  have w6 : (c == Char.ofNat 12) = false := beq_false_of_pred h (by decide)
  simp [pyws, jws, w1, w2, w3, w4, w5, w6]

theorem serNat_last_digit (n : Nat) :
    ∃ y b, serNat n = y ++ [b] ∧ b.isDigit = true := by
  have hne := serNat_ne_nil n
  refine ⟨(serNat n).dropLast, (serNat n).getLast hne, (List.dropLast_append_getLast hne).symm, ?_⟩
  have hall := serNat_all_digit n
  rw [List.all_eq_true] at hall
  exact hall _ (List.getLast_mem hne)

theorem serVal_head_pyws (j : Json) :
    ∃ c t, serVal j = c :: t ∧ pyws c = false := by
  obtain ⟨c, t, hct, hw, _, _⟩ := serVal_head_facts j
  refine ⟨c, t, hct, ?_⟩
  cases j with
  | num i =>
    obtain ⟨c2, t2, hct2, hh⟩ := serInt_head i
    have hcc : c2 = c := by
      have : serVal (Json.num i) = serInt i := by simp [serVal]
      rw [hct, hct2] at this
      exact (List.cons.injEq _ _ _ _ ▸ this).1.symm
    rw [← hcc]
    simp only [Bool.or_eq_true] at hh
    rcases hh with hh | hh
    · have : c2 = '-' := by simpa using hh
      rw [this]; decide
    · exact pyws_of_digit hh
  | null =>
    have : c = 'n' := by
      have h2 : serVal Json.null = 'n' :: ['u', 'l', 'l'] := by simp [serVal]
      rw [hct] at h2
      exact (List.cons.injEq _ _ _ _ ▸ h2).1
    rw [this]; decide
  | bool b =>
    cases b with
    | true =>
      have : c = 't' := by
        have h2 : serVal (Json.bool true) = 't' :: ['r', 'u', 'e'] := by simp [serVal]
        rw [hct] at h2
        exact (List.cons.injEq _ _ _ _ ▸ h2).1
      rw [this]; decide
    | false =>
      have : c = 'f' := by
        have h2 : serVal (Json.bool false) = 'f' :: ['a', 'l', 's', 'e'] := by simp [serVal]
        rw [hct] at h2
        exact (List.cons.injEq _ _ _ _ ▸ h2).1
      rw [this]; decide
  | str s =>
    have : c = '"' := by
      have h2 : serVal (Json.str s) = '"' :: (s ++ ['"']) := by simp [serVal]
      rw [hct] at h2
      exact (List.cons.injEq _ _ _ _ ▸ h2).1
    rw [this]; decide
  | arr l =>
    have : c = '[' := by
      have h2 : serVal (Json.arr l) = '[' :: (serList l ++ [']']) := by simp [serVal]
      rw [hct] at h2
      exact (List.cons.injEq _ _ _ _ ▸ h2).1
    rw [this]; decide
  | obj m =>
    have : c = '{' := by
      have h2 : serVal (Json.obj m) = '{' :: (serKVs m ++ ['}']) := by simp [serVal]
      rw [hct] at h2
      exact (List.cons.injEq _ _ _ _ ▸ h2).1
    rw [this]; decide

theorem serVal_last_pyws (j : Json) :
    ∃ y b, serVal j = y ++ [b] ∧ pyws b = false := by
  cases j with
  | null => exact ⟨['n', 'u', 'l'], 'l', by simp [serVal], by decide⟩
  | bool b =>
    cases b with
    | true => exact ⟨['t', 'r', 'u'], 'e', by simp [serVal], by decide⟩
    | false => exact ⟨['f', 'a', 'l', 's'], 'e', by simp [serVal], by decide⟩
  | num i =>
    cases i with
    | ofNat n =>
      obtain ⟨y, b, hyb, hb⟩ := serNat_last_digit n
      exact ⟨y, b, by simp [serVal, serInt, hyb], pyws_of_digit hb⟩
    | negSucc m =>
      obtain ⟨y, b, hyb, hb⟩ := serNat_last_digit (m + 1)
      exact ⟨'-' :: y, b, by simp [serVal, serInt, hyb], pyws_of_digit hb⟩
  | str s => exact ⟨'"' :: s, '"', by simp [serVal], by decide⟩
  | arr l => exact ⟨'[' :: serList l, ']', by simp [serVal], by decide⟩
  | obj m => exact ⟨'{' :: serKVs m, '}', by simp [serVal], by decide⟩

theorem serVal_no_tick {j : Json} (h : jsonSafe j = true) : btick ∉ serVal j :=
  cleanChars_no_tick (serVal_cleanChars j h)

/-! ## Claim C2: round trip through fence stripping -/

/-- Claim C2 counterexample: the well-formed JSON text drawn as
left-bracket, quote, three backticks, quote, right-bracket parses
strictly to an array holding the three-backtick string, but the recovery
parser first runs the fence replacements, which delete the backticks
from inside the string literal, so it returns the array holding the
empty string instead of the parsed structure of the text. -/
theorem recover_not_roundtrip_on_backtick_content :
    json_loads ['[', '"', btick, btick, btick, '"', ']']
      = some (Json.arr (.cons (.str [btick, btick, btick]) .nil)) ∧
    parse_json_response ['[', '"', btick, btick, btick, '"', ']']
      = Json.arr (.cons (.str []) .nil) ∧
    Json.arr (.cons (.str [btick, btick, btick]) .nil)
      ≠ Json.arr (.cons (.str []) .nil) := by
  have hA : pyReplace fenceJson7 [] ['[', '"', btick, btick, btick, '"', ']']
      = ['[', '"', btick, btick, btick, '"', ']'] := by
    simp +decide [pyReplace, fenceJson7, fence3, btick, List.isPrefixOf]
  have hB : pyReplace fence3 [] ['[', '"', btick, btick, btick, '"', ']']
      = ['[', '"', '"', ']'] := by
    simp +decide [pyReplace, fence3, btick, List.isPrefixOf]
  refine ⟨by rfl, ?_, by simp [btick]⟩
  simp only [parse_json_response, hA, hB]
  rfl

/-- Claim C2 (amended): for every backtick-free well-formed JSON value,
the recovery parser returns exactly the value both for the bare
serialized text and for the text wrapped in triple-backtick fence
markers with or without the json language tag. -/
theorem recover_roundtrip_fenced (j : Json) (hs : jsonSafe j = true) :
    parse_json_response (serVal j) = j ∧
    parse_json_response (fenceJson7 ++ '\n' :: serVal j ++ '\n' :: fence3) = j ∧
    parse_json_response (fence3 ++ '\n' :: serVal j ++ '\n' :: fence3) = j := by
  have htick : btick ∉ serVal j := serVal_no_tick hs
  have hhead := serVal_head_pyws j
  have hlast := serVal_last_pyws j
  have h1 := clean_unfenced htick hhead hlast
  have h2 := clean_fenceJson htick hhead hlast
  have h3 := clean_fenceBare htick hhead hlast
  have hl := json_loads_ser hs
  refine ⟨?_, ?_, ?_⟩
  · simp only [parse_json_response, h1, hl]
  · simp only [parse_json_response, h2, hl]
  · simp only [parse_json_response, h3, hl]

/-- Claim C2 witness: the amended round trip at a concrete one-member
object. -/
theorem recover_roundtrip_fenced_witness :
    jsonSafe (Json.obj (.cons ['a'] (.num 1) .nil)) = true ∧
    (parse_json_response (serVal (Json.obj (.cons ['a'] (.num 1) .nil)))
        = Json.obj (.cons ['a'] (.num 1) .nil) ∧
      parse_json_response
          (fenceJson7 ++ '\n' :: serVal (Json.obj (.cons ['a'] (.num 1) .nil)) ++ '\n' :: fence3)
        = Json.obj (.cons ['a'] (.num 1) .nil) ∧
      parse_json_response
          (fence3 ++ '\n' :: serVal (Json.obj (.cons ['a'] (.num 1) .nil)) ++ '\n' :: fence3)
        = Json.obj (.cons ['a'] (.num 1) .nil)) := by
  have h : jsonSafe (Json.obj (.cons ['a'] (.num 1) .nil)) = true := by
    simp +decide [jsonSafe, jsonSafeK, goodStr, goodStrChar, btick]
  exact ⟨h, recover_roundtrip_fenced _ h⟩

/-! ## Claim C4: totality of the recovery parser -/

theorem finishRepair_cases (r : Str) :
    (∃ s, json_loads s = some (finishRepair r)) ∨ finishRepair r = errMarker := by
  simp only [finishRepair]
  split
  · next v h => exact Or.inl ⟨_, h⟩
  · exact Or.inr rfl

/-- Claim C4: on every input the recovery parser returns either a value
that strict `json.loads` accepts on some text, or the fixed failure
marker carrying the truncation message; being a total function of the
model, it never raises and never returns a missing value. -/
theorem recover_total_or_marker :
    (∀ text, (∃ s, json_loads s = some (parse_json_response text)) ∨
      parse_json_response text = errMarker) ∧
    errMarker = Json.obj (.cons "error".toList
      (.str "Analysis response was truncated. Please try again.".toList) .nil) := by
  refine ⟨?_, rfl⟩
  intro text
  simp only [parse_json_response]
  split
  · next v h => exact Or.inl ⟨_, h⟩
  · next h =>
    split
    · next cand hc =>
      split
      · next v hv => exact Or.inl ⟨_, hv⟩
      · next hv => exact finishRepair_cases cand
    · next hc => exact finishRepair_cases _

/-! ## Claim C9: fewer than two rows -/

/-- Claim C9: on inputs with fewer than two rows both importers return
the empty record list together with their descriptive error message;
both functions are total, so no exception is modelled. -/
theorem import_short_input_error (title : Str) (rows : List (List Str))
    (h : rows.length < 2) :
    parse_xlsx title rows
      = ([], some ("Sheet \"".toList ++ title ++ "\" has no data rows.".toList)) ∧
    parse_csv rows = ([], some ("CSV has no data rows.".toList)) := by
  constructor
  · unfold parse_xlsx
    rw [if_pos h]
  · unfold parse_csv
    rw [if_pos h]

/-- Claim C9 witness: a single-row input at a concrete sheet title. -/
theorem import_short_input_error_witness :
    ([["h".toList]] : List (List Str)).length < 2 ∧
    (parse_xlsx "Lessons Learned".toList [["h".toList]]
        = ([], some ("Sheet \"".toList ++ "Lessons Learned".toList
            ++ "\" has no data rows.".toList)) ∧
      parse_csv [["h".toList]] = ([], some ("CSV has no data rows.".toList))) :=
  ⟨by decide, import_short_input_error _ _ (by decide)⟩

/-! ## Claim C10: totality of the per-row accessor -/

/-- Claim C10: the per-row accessors of both importers return the empty
string whenever the field resolved to no column (default index -1) or
the row is shorter than the resolved index, so short rows never make a
lookup fail. -/
theorem get_accessor_total (cm : List (String × Int)) (row : List Str) (key : String)
    (h : (cm.lookup key).getD (-1) < 0 ∨ (row.length : Int) ≤ (cm.lookup key).getD (-1)) :
    getXlsx cm row key = [] ∧ getCsv cm row key = [] := by
  constructor
  · show (if (cm.lookup key).getD (-1) < 0 ∨ (row.length : Int) ≤ (cm.lookup key).getD (-1)
        then ([] : Str)
        else cell_str (row.getD ((cm.lookup key).getD (-1)).toNat [])) = []
    rw [if_pos h]
  · show (if (cm.lookup key).getD (-1) < 0 ∨ (row.length : Int) ≤ (cm.lookup key).getD (-1)
        then ([] : Str)
        else pyStrip (row.getD ((cm.lookup key).getD (-1)).toNat [])) = []
    rw [if_pos h]

/-- Claim C10 witness: the id field over an empty header set and an
empty row resolves to no column and both accessors return empty. -/
theorem get_accessor_total_witness :
    (((colMapXlsx []).lookup "id").getD (-1) < 0 ∨
      (([] : List Str).length : Int) ≤ ((colMapXlsx []).lookup "id").getD (-1)) ∧
    (getXlsx (colMapXlsx []) [] "id" = [] ∧ getCsv (colMapXlsx []) [] "id" = []) :=
  ⟨by decide, get_accessor_total _ _ _ (by decide)⟩

/-! ## Claim C5: header resolution order -/

/-- Claim C5: `find_col` scans candidate terms in order and, for the
first term with any substring hit, returns the index of the leftmost
matching header (all columns are scanned for a term before the next term
is tried, so a later column matching an earlier-priority term wins);
`-1` when no term matches any header.  The concrete conjuncts instantiate
the term-priority tie-break and the lowercased-substring match of the
header drawn as capital-L capital-L space hash space parenthesised Auto
against the term drawn as l l space hash. -/
theorem find_col_term_priority :
    (∀ (headers : List Str) (t : Str) (ts : List Str) (i : Nat),
        headers.findIdx? (fun h => isSub t h) = some i →
        find_col headers (t :: ts) = (i : Int)) ∧
    (∀ (headers : List Str) (t : Str) (ts : List Str),
        (∀ h ∈ headers, isSub t h = false) →
        find_col headers (t :: ts) = find_col headers ts) ∧
    (∀ (headers : List Str) (terms : List Str),
        (∀ t ∈ terms, ∀ h ∈ headers, isSub t h = false) →
        find_col headers terms = -1) ∧
    (∀ (headers : List Str) (t : Str) (i : Nat),
        headers.findIdx? (fun h => isSub t h) = some i →
        i < headers.length ∧ isSub t (headers.getD i []) = true ∧
          ∀ j, j < i → isSub t (headers.getD j []) = false) ∧
    find_col ["id".toList, "ll # (auto)".toList] ["ll #".toList, "id".toList] = 1 ∧
    find_col ["ll # (auto)".toList] [("LL #".toList).map Char.toLower] = 0 := by
  refine ⟨?_, ?_, ?_, ?_, by decide, by decide⟩
  · intro headers t ts i h
    simp [find_col, h]
  · intro headers t ts h
    have hn : headers.findIdx? (fun h2 => isSub t h2) = none :=
      List.findIdx?_eq_none_iff.mpr (fun x hx => h x hx)
    simp [find_col, hn]
  · intro headers terms h
    induction terms with
    | nil => rfl
    | cons t ts ih =>
      have hn : headers.findIdx? (fun h2 => isSub t h2) = none :=
        List.findIdx?_eq_none_iff.mpr (fun x hx => h t (by simp) x hx)
      simp only [find_col, hn]
      exact ih (fun u hu x hx => h u (by simp [hu]) x hx)
  · intro headers t i h
    rw [List.findIdx?_eq_some_iff_findIdx_eq] at h
    obtain ⟨hlt, hidx⟩ := h
    refine ⟨hlt, ?_, ?_⟩
    · have hg : isSub t headers[i] = true := by
        have hw : headers.findIdx (fun h2 => isSub t h2) < headers.length := by
          rw [hidx]; exact hlt
        have := @List.findIdx_getElem _ (fun h2 => isSub t h2) headers hw
        simpa [hidx] using this
      have hD : headers.getD i [] = headers[i] := by
        simp [List.getD_eq_getElem?_getD, List.getElem?_eq_getElem hlt]
      rw [hD]
      exact hg
    · intro j hj
      have hj2 : j < headers.findIdx (fun h2 => isSub t h2) := by
        rw [hidx]; exact hj
      have hjl : j < headers.length :=
        lt_of_lt_of_le hj2 (List.findIdx_le_length _)
      have hfail := List.not_of_lt_findIdx hj2
      have hD : headers.getD j [] = headers[j] := by
        simp [List.getD_eq_getElem?_getD, List.getElem?_eq_getElem hjl]
      rw [hD]
      exact hfail

/-! ## Claim C6: severity priority order -/

/-- Claim C6: `map_severity` returns Medium on empty input, otherwise
scans `SEVERITY_KEYWORDS` in its fixed order Critical, High, Medium and
returns the first entry with a keyword substring hit in the lowercased
text, falling back to Medium when nothing matches; with the three
concrete fixture pairs locked down. -/
theorem scanSeverity_hit_head (sev : Str) (kws : List Str) (rest : List (Str × List Str))
    (lower : Str) (h : kws.any (fun k => isSub k lower) = true) :
    scanSeverity ((sev, kws) :: rest) lower = sev := by
  simp [scanSeverity, h]

theorem scanSeverity_miss_head (sev : Str) (kws : List Str) (rest : List (Str × List Str))
    (lower : Str) (h : kws.any (fun k => isSub k lower) = false) :
    scanSeverity ((sev, kws) :: rest) lower = scanSeverity rest lower := by
  simp [scanSeverity, h]

theorem map_severity_priority :
    map_severity [] = "Medium".toList ∧
    map_severity "resulted in a fatality".toList = "Critical".toList ∧
    map_severity "minor delay of one week".toList = "High".toList ∧
    (∀ (t : Str) (kwsC kwsH kwsM : List Str),
      SEVERITY_KEYWORDS
          = [("Critical".toList, kwsC), ("High".toList, kwsH), ("Medium".toList, kwsM)] →
      t ≠ [] →
      (kwsC.any (fun k => isSub k (t.map Char.toLower)) = true →
        map_severity t = "Critical".toList) ∧
      (kwsC.any (fun k => isSub k (t.map Char.toLower)) = false →
        kwsH.any (fun k => isSub k (t.map Char.toLower)) = true →
        map_severity t = "High".toList) ∧
      (kwsC.any (fun k => isSub k (t.map Char.toLower)) = false →
        kwsH.any (fun k => isSub k (t.map Char.toLower)) = false →
        map_severity t = "Medium".toList)) := by
  refine ⟨by decide, by decide, by decide, ?_⟩
  intro t kwsC kwsH kwsM hS hne
  refine ⟨?_, ?_, ?_⟩
  · intro hhit
    simp only [map_severity, if_neg hne]
    rw [hS, scanSeverity_hit_head _ _ _ _ hhit]
  · intro hmiss hhit
    simp only [map_severity, if_neg hne]
    rw [hS, scanSeverity_miss_head _ _ _ _ hmiss, scanSeverity_hit_head _ _ _ _ hhit]
  · intro hmiss1 hmiss2
    simp only [map_severity, if_neg hne]
    rw [hS, scanSeverity_miss_head _ _ _ _ hmiss1, scanSeverity_miss_head _ _ _ _ hmiss2]
    cases hM : kwsM.any (fun k => isSub k (t.map Char.toLower)) with
    | true => rw [scanSeverity_hit_head _ _ _ _ hM]
    | false =>
      rw [scanSeverity_miss_head _ _ _ _ hM]
      rfl

/-! ## Claim C7: record invariants of the importers -/

theorem desc2_ne (context wh : Str) (hcw : ¬(context = [] ∧ wh = [])) :
    (if wh ≠ [] ∧ wh ≠ context then
        (if context ≠ [] then context ++ "\n\nWhat happened: ".toList ++ wh else wh)
      else context) ≠ [] := by
  split
  · next hw =>
    split
    · simp
    · exact hw.1
  · next hw =>
    intro hctx
    rw [not_and_or] at hw
    simp only [ne_eq, not_not] at hw
    rcases hw with hw | hw
    · exact hcw ⟨hctx, hw⟩
    · rw [hw] at hcw
      exact hcw ⟨hctx, hctx⟩

theorem desc3_ne (context wh worked : Str) (hcw : ¬(context = [] ∧ wh = [])) :
    (if worked ≠ [] then
        (if wh ≠ [] ∧ wh ≠ context then
            (if context ≠ [] then context ++ "\n\nWhat happened: ".toList ++ wh else wh)
          else context) ++ "\n\n".toList ++ worked
      else
        (if wh ≠ [] ∧ wh ≠ context then
            (if context ≠ [] then context ++ "\n\nWhat happened: ".toList ++ wh else wh)
          else context)) ≠ [] := by
  split
  · simp
  · exact desc2_ne context wh hcw

theorem xlsxRow_invariant (cm : List (String × Int)) (row : List Str) (l : LessonX)
    (h : xlsxRow cm row = some l) :
    l.title ≠ [] ∧ l.title.length ≤ 100 ∧ l.description ≠ [] := by
  simp only [xlsxRow] at h
  split at h
  · exact absurd h (by simp)
  · next hcw =>
    split at h
    · next hlong =>
      have hne : (List.take 97 (pyStrip
          (List.takeWhile (fun x => x != '\n')
            (List.takeWhile (fun x => x != '!')
              (List.takeWhile (fun x => x != '.') (getXlsx cm row "context")))))
            ++ "...".toList) ≠ [] := by simp
      rw [if_neg hne, if_neg hne] at h
      injection h with h2
      subst h2
      refine ⟨hne, ?_, desc3_ne _ _ _ hcw⟩
      simp only [List.length_append, List.length_take]
      have : "...".toList.length = 3 := by decide
      omega
    · next hshort =>
      split at h
      · next hemp =>
        split at h
        · exact absurd h (by simp)
        · next hti =>
          injection h with h2
          subst h2
          refine ⟨hti, ?_, desc3_ne _ _ _ hcw⟩
          simp only [List.length_take]
          omega
      · next hne =>
        injection h with h2
        subst h2
        refine ⟨hne, ?_, desc3_ne _ _ _ hcw⟩
        dsimp only
        omega

theorem csvRow_invariant (cm : List (String × Int)) (row : List Str) (l : LessonC)
    (h : csvRow cm row = some l) :
    l.title ≠ [] ∧ l.title.length ≤ 100 ∧ l.description ≠ [] := by
  simp only [csvRow] at h
  split at h
  · exact absurd h (by simp)
  · next hcw =>
    split at h
    · next hemp =>
      split at h
      · exact absurd h (by simp)
      · next hti =>
        injection h with h2
        subst h2
        refine ⟨hti, ?_, desc2_ne _ _ hcw⟩
        simp only [List.length_take]
        omega
    · next hne =>
      injection h with h2
      subst h2
      refine ⟨hne, ?_, desc2_ne _ _ hcw⟩
      simp only [List.length_take]
      omega

/-- Claim C7: every record either importer emits has a non-empty title
of at most 100 characters and a non-empty description; rows that cannot
produce such a record are dropped from the output, and the concrete
two-row inputs show a kept data row and a dropped all-blank data row. -/
theorem import_record_invariants :
    (∀ (sheetTitle : Str) (rows : List (List Str)) (l : LessonX),
        l ∈ (parse_xlsx sheetTitle rows).1 →
        l.title ≠ [] ∧ l.title.length ≤ 100 ∧ l.description ≠ []) ∧
    (∀ (rows : List (List Str)) (l : LessonC),
        l ∈ (parse_csv rows).1 →
        l.title ≠ [] ∧ l.title.length ≤ 100 ∧ l.description ≠ []) ∧
    (parse_csv [["situation".toList], ["Site flooding stopped work".toList]]).1.length = 1 ∧
    (parse_csv [["situation".toList], [" ".toList]]).1.length = 0 := by
  refine ⟨?_, ?_, by decide, by decide⟩
  · intro st rows l hmem
    simp only [parse_xlsx] at hmem
    split at hmem
    · simp at hmem
    · simp only [List.mem_filterMap] at hmem
      obtain ⟨row, _, hrow⟩ := hmem
      exact xlsxRow_invariant _ _ _ hrow
  · intro rows l hmem
    simp only [parse_csv] at hmem
    split at hmem
    · simp at hmem
    · simp only [List.mem_filterMap] at hmem
      obtain ⟨row, _, hrow⟩ := hmem
      exact csvRow_invariant _ _ _ hrow

/-! ## Claim C8: title derivation -/

/-- Claim C8 counterexample: the CSV importer does not split the title
on the exclamation mark and does not add an ellipsis on truncation.  The
first data row keeps the exclamation mark inside the emitted title; the
second, 120 characters long, is cut to a plain 100-character prefix
rather than a 97-character prefix with a trailing ellipsis. -/
theorem csv_title_bang_and_no_ellipsis :
    (parse_csv [["situation".toList], ["Boom! Then more. End".toList]]).1.map LessonC.title
      = ["Boom! Then more".toList] ∧
    '!' ∈ "Boom! Then more".toList ∧
    (parse_csv [["situation".toList], [List.replicate 120 'a']]).1.map LessonC.title
      = [List.replicate 100 'a'] ∧
    List.replicate 100 'a' ≠ List.replicate 97 'a' ++ "...".toList := by
  refine ⟨by decide, by decide, by decide, by decide⟩

theorem takeWhile_pred_congr {p q : Char → Bool} (h : ∀ a, p a = q a) :
    ∀ s : Str, s.takeWhile p = s.takeWhile q := by
  intro s
  induction s with
  | nil => rfl
  | cons a t ih => simp only [List.takeWhile_cons, h a, ih]

theorem tw_dot_bang_nl (s : Str) :
    ((s.takeWhile (· != '.')).takeWhile (· != '!')).takeWhile (· != '\n')
      = s.takeWhile (fun c => c != '.' && c != '!' && c != '\n') := by
  rw [List.takeWhile_takeWhile, List.takeWhile_takeWhile]
  exact takeWhile_pred_congr (fun a => by
    by_cases h1 : a = '.' <;> by_cases h2 : a = '!' <;> by_cases h3 : a = '\n' <;>
      simp [h1, h2, h3, bne]) s

theorem tw_dot_nl (s : Str) :
    (s.takeWhile (· != '.')).takeWhile (· != '\n')
      = s.takeWhile (fun c => c != '.' && c != '\n') := by
  rw [List.takeWhile_takeWhile]
  exact takeWhile_pred_congr (fun a => by
    by_cases h1 : a = '.' <;> by_cases h2 : a = '\n' <;> simp [h1, h2, bne]) s

/-- Title rule of the amended claim C8 for the XLSX importer, written
from the amended wording: first sentence of the context (cut at the
first period, exclamation mark or newline), stripped, shortened to a
97-character prefix plus ellipsis when longer than 100; when empty, the
first sentence of what-happened (cut at period or newline), stripped and
truncated to 100 without an ellipsis. -/
def xlsxTitleSpec (context wh : Str) : Str :=
  let first := pyStrip (context.takeWhile (fun c => c != '.' && c != '!' && c != '\n'))
  let cut := if 100 < first.length then first.take 97 ++ "...".toList else first
  if cut = [] then (pyStrip (wh.takeWhile (fun c => c != '.' && c != '\n'))).take 100
  else cut

/-- Title rule of the amended claim C8 for the CSV importer, written
from the amended wording: first sentence of the context cut at the first
period or newline only (the exclamation mark is not a separator here),
stripped and truncated to 100 characters with no ellipsis; when empty,
the what-happened text cut at the first period, stripped and truncated
to 100. -/
def csvTitleSpec (context wh : Str) : Str :=
  let first := (pyStrip (context.takeWhile (fun c => c != '.' && c != '\n'))).take 100
  if first = [] then (pyStrip (wh.takeWhile (· != '.'))).take 100
  else first

theorem titleX_eq (context wh : Str) :
    (if (if 100 < (pyStrip (((context.takeWhile (· != '.')).takeWhile (· != '!')).takeWhile (· != '\n'))).length
        then (pyStrip (((context.takeWhile (· != '.')).takeWhile (· != '!')).takeWhile (· != '\n'))).take 97
          ++ "...".toList
        else pyStrip (((context.takeWhile (· != '.')).takeWhile (· != '!')).takeWhile (· != '\n'))) = []
      then (pyStrip ((wh.takeWhile (· != '.')).takeWhile (· != '\n'))).take 100
      else (if 100 < (pyStrip (((context.takeWhile (· != '.')).takeWhile (· != '!')).takeWhile (· != '\n'))).length
        then (pyStrip (((context.takeWhile (· != '.')).takeWhile (· != '!')).takeWhile (· != '\n'))).take 97
          ++ "...".toList
        else pyStrip (((context.takeWhile (· != '.')).takeWhile (· != '!')).takeWhile (· != '\n'))))
    = xlsxTitleSpec context wh := by
  simp only [xlsxTitleSpec]
  rw [← tw_dot_bang_nl, ← tw_dot_nl]

theorem titleC_eq (context wh : Str) :
    (if (pyStrip ((context.takeWhile (· != '.')).takeWhile (· != '\n'))).take 100 = []
      then (pyStrip (wh.takeWhile (· != '.'))).take 100
      else (pyStrip ((context.takeWhile (· != '.')).takeWhile (· != '\n'))).take 100)
    = csvTitleSpec context wh := by
  simp only [csvTitleSpec]
  rw [← tw_dot_nl]

/-- Claim C8 (amended): the emitted title follows the per-variant rule
of `xlsxTitleSpec` and `csvTitleSpec` (the XLSX variant alone splits on
the exclamation mark and adds the ellipsis; the CSV variant splits on
period and newline only and truncates without an ellipsis), and a row
whose rule yields an empty title is skipped. -/
theorem import_title_derivation :
    (∀ (cm : List (String × Int)) (row : List Str) (l : LessonX),
        xlsxRow cm row = some l →
        l.title = xlsxTitleSpec (getXlsx cm row "context") (getXlsx cm row "what_happened")) ∧
    (∀ (cm : List (String × Int)) (row : List Str) (l : LessonC),
        csvRow cm row = some l →
        l.title = csvTitleSpec (getCsv cm row "context") (getCsv cm row "what_happened")) ∧
    (∀ (cm : List (String × Int)) (row : List Str),
        xlsxTitleSpec (getXlsx cm row "context") (getXlsx cm row "what_happened") = [] →
        xlsxRow cm row = none) ∧
    (∀ (cm : List (String × Int)) (row : List Str),
        csvTitleSpec (getCsv cm row "context") (getCsv cm row "what_happened") = [] →
        csvRow cm row = none) := by
  refine ⟨?_, ?_, ?_, ?_⟩
  · intro cm row l h
    simp only [xlsxRow] at h
    split at h
    · exact absurd h (by simp)
    · next hcw =>
      split at h
      · next hlong =>
        have hne : (List.take 97 (pyStrip
            (List.takeWhile (fun x => x != '\n')
              (List.takeWhile (fun x => x != '!')
                (List.takeWhile (fun x => x != '.') (getXlsx cm row "context")))))
              ++ "...".toList) ≠ [] := by simp
        rw [if_neg hne, if_neg hne] at h
        injection h with h2
        subst h2
        dsimp only
        rw [← titleX_eq, if_pos hlong, if_neg hne]
      · next hshort =>
        split at h
        · next hemp =>
          split at h
          · exact absurd h (by simp)
          · next hti =>
            injection h with h2
            subst h2
            dsimp only
            rw [← titleX_eq, if_neg hshort, if_pos hemp]
        · next hne =>
          injection h with h2
          subst h2
          dsimp only
          rw [← titleX_eq, if_neg hshort, if_neg hne]
  · intro cm row l h
    simp only [csvRow] at h
    split at h
    · exact absurd h (by simp)
    · next hcw =>
      split at h
      · next hemp =>
        split at h
        · exact absurd h (by simp)
        · next hti =>
          injection h with h2
          subst h2
          dsimp only
          rw [← titleC_eq, if_pos hemp]
      · next hne =>
        injection h with h2
        subst h2
        dsimp only
        rw [← titleC_eq, if_neg hne]
  · intro cm row hspec
    simp only [xlsxRow]
    split
    · rfl
    · rw [(titleX_eq _ _).trans hspec]
      simp
  · intro cm row hspec
    simp only [csvRow]
    split
    · rfl
    · rw [(titleC_eq _ _).trans hspec]
      simp

/-! ## Token strings: the alphanumeric scenario alphabet for C1 and C3 -/

/-- Alphanumeric characters, the alphabet used by the truncation
scenarios: inside JSON strings they are inert for every primitive the
repair code uses. -/
def tokChar (c : Char) : Bool := c.isAlphanum

/-- A string of alphanumeric characters. -/
def tokStr (s : Str) : Bool := s.all tokChar

/-- Object members with plain string values, the shape of the scenario
objects. -/
def kvsOfPairs : List (Str × Str) → JsonKVs
  | [] => .nil
  | (k, v) :: rest => .cons k (.str v) (kvsOfPairs rest)

theorem tokChar_ge32 {c : Char} (h : tokChar c = true) : 32 ≤ c.toNat := by
  simp only [tokChar, Char.isAlphanum, Char.isAlpha, Char.isUpper, Char.isLower, Char.isDigit,
    Bool.or_eq_true, Bool.and_eq_true, decide_eq_true_eq] at h
  rcases h with (h | h) | h
  · have h2 : 'A'.toNat ≤ c.toNat := h.1
    have h3 : 'A'.toNat = 65 := by decide
    omega
  · have h2 : 'a'.toNat ≤ c.toNat := h.1
    have h3 : 'a'.toNat = 97 := by decide
    omega
  · have h2 : '0'.toNat ≤ c.toNat := h.1
    have h3 : '0'.toNat = 48 := by decide
    omega

theorem tokChar_good {c : Char} (h : tokChar c = true) : goodStrChar c = true := by
  have h1 : (c == '"') = false := beq_false_of_pred h (by decide)
  have h2 : (c == '\\') = false := beq_false_of_pred h (by decide)
  have h3 : (c == btick) = false := beq_false_of_pred h (by decide)
  simp [goodStrChar, h1, h2, h3, tokChar_ge32 h]

theorem tokStr_good {s : Str} (h : tokStr s = true) : goodStr s = true := by
  simp only [tokStr, List.all_eq_true] at h
  simp only [goodStr, List.all_eq_true]
  exact fun c hc => tokChar_good (h c hc)

theorem tokStr_not_mem {s : Str} (h : tokStr s = true) {d : Char}
    (hd : tokChar d = false) : d ∉ s := by
  intro hm
  simp only [tokStr, List.all_eq_true] at h
  have := h d hm
  rw [this] at hd
  exact absurd hd (by simp)

theorem tokStr_count_quote {s : Str} (h : tokStr s = true) : s.count '"' = 0 :=
  List.count_eq_zero.mpr (tokStr_not_mem h (by decide))

theorem tokStr_noBS {s : Str} (h : tokStr s = true) : noBS s = true := by
  simp only [tokStr, List.all_eq_true] at h
  simp only [noBS, List.all_eq_true]
  intro c hc
  have := beq_false_of_pred (h c hc) (show tokChar '\\' = false by decide)
  simp [this]

theorem tokStr_noBracket {s : Str} (h : tokStr s = true) : s.all noBracket = true := by
  simp only [tokStr, List.all_eq_true] at h
  simp only [List.all_eq_true]
  intro c hc
  have h1 : (c == '{') = false := beq_false_of_pred (h c hc) (by decide)
  have h2 : (c == '[') = false := beq_false_of_pred (h c hc) (by decide)
  have h3 : (c == '}') = false := beq_false_of_pred (h c hc) (by decide)
  have h4 : (c == ']') = false := beq_false_of_pred (h c hc) (by decide)
  simp [noBracket, h1, h2, h3, h4]

theorem goodStr_not_tick {s : Str} (h : goodStr s = true) : btick ∉ s := by
  intro hm
  simp only [goodStr, List.all_eq_true] at h
  have := goodStrChar_not_tick (h btick hm)
  simp at this

theorem kvsOfPairs_safe : ∀ {kvs : List (Str × Str)},
    kvs.all (fun q => tokStr q.1 && tokStr q.2) = true →
    jsonSafeK (kvsOfPairs kvs) = true := by
  intro kvs
  induction kvs with
  | nil => intro _; rfl
  | cons a rest ih =>
    intro h
    simp only [List.all_cons, Bool.and_eq_true] at h
    obtain ⟨⟨h1, h2⟩, h3⟩ := h
    cases a with
    | mk k v =>
      simp [kvsOfPairs, jsonSafeK, jsonSafe, tokStr_good h1, tokStr_good h2, ih h3]

theorem serKVs_snoc : ∀ (kvs : List (Str × Str)) (k p : Str),
    serKVs (kvsOfPairs (kvs ++ [(k, p)]))
      = serKVs (kvsOfPairs kvs) ++ (if kvs.isEmpty then [] else [','])
        ++ '"' :: k ++ '"' :: ':' :: serVal (.str p) := by
  intro kvs
  induction kvs with
  | nil => intro k p; simp [kvsOfPairs, serKVs]
  | cons a rest ih =>
    intro k p
    cases a with
    | mk k1 v1 =>
      cases rest with
      | nil => simp [kvsOfPairs, serKVs]
      | cons b rest2 =>
        cases b with
        | mk k2 v2 =>
          have hx := ih k p
          simp only [kvsOfPairs, List.cons_append, serKVs] at hx ⊢
          rw [hx]
          simp [List.isEmpty]

theorem serKVs_tok_noBracket : ∀ {kvs : List (Str × Str)},
    kvs.all (fun q => tokStr q.1 && tokStr q.2) = true →
    (serKVs (kvsOfPairs kvs)).all noBracket = true := by
  intro kvs
  induction kvs with
  | nil => intro _; rfl
  | cons a rest ih =>
    intro h
    simp only [List.all_cons, Bool.and_eq_true] at h
    obtain ⟨⟨h1, h2⟩, h3⟩ := h
    cases a with
    | mk k v =>
      cases rest with
      | nil =>
        simp only [kvsOfPairs, serKVs, serVal]
        simp [List.all_cons, List.all_append, tokStr_noBracket h1, tokStr_noBracket h2,
          noBracket]
      | cons b rest2 =>
        have hrec := ih h3
        cases b with
        | mk k2 v2 =>
          simp only [kvsOfPairs, serKVs, serVal] at hrec ⊢
          simp [List.all_cons, List.all_append, tokStr_noBracket h1, tokStr_noBracket h2,
            noBracket, hrec]

/-! ## Claim C3: generic repair of a dangling string -/

theorem tokChar_pyws {c : Char} (h : tokChar c = true) : pyws c = false := by
  have w1 : (c == ' ') = false := beq_false_of_pred h (by decide)
  have w2 : (c == '\t') = false := beq_false_of_pred h (by decide)
  have w3 : (c == '\n') = false := beq_false_of_pred h (by decide)
  have w4 : (c == '\r') = false := beq_false_of_pred h (by decide)
  have w5 : (c == Char.ofNat 11) = false := beq_false_of_pred h (by decide)
  have w6 : (c == Char.ofNat 12) = false := beq_false_of_pred h (by decide)
  simp [pyws, jws, w1, w2, w3, w4, w5, w6]

/-- Printable, non-whitespace characters other than quotes, backslashes,
backticks and the four bracket characters: inside a JSON string literal
these are inert for every primitive the generic repair uses, including
its naive bracket stack, which counts brace and bracket characters even
inside string literals. -/
def plainChar (c : Char) : Bool := goodStrChar c && noBracket c && !pyws c

/-- A string of plain characters. -/
def plainStr (s : Str) : Bool := s.all plainChar

theorem plainChar_good {c : Char} (h : plainChar c = true) : goodStrChar c = true := by
  simp only [plainChar, Bool.and_eq_true] at h
  exact h.1.1

theorem plainChar_brackets {c : Char} (h : plainChar c = true) : noBracket c = true := by
  simp only [plainChar, Bool.and_eq_true] at h
  exact h.1.2

theorem plainChar_pyws {c : Char} (h : plainChar c = true) : pyws c = false := by
  simp only [plainChar, Bool.and_eq_true, Bool.not_eq_true'] at h
  exact h.2

theorem plainStr_good {s : Str} (h : plainStr s = true) : goodStr s = true := by
  simp only [plainStr, List.all_eq_true] at h
  simp only [goodStr, List.all_eq_true]
  exact fun c hc => plainChar_good (h c hc)

theorem plainStr_not_mem {s : Str} (h : plainStr s = true) {d : Char}
    (hd : plainChar d = false) : d ∉ s := by
  intro hm
  simp only [plainStr, List.all_eq_true] at h
  have := h d hm
  rw [this] at hd
  exact absurd hd (by simp)

theorem plainStr_count_quote {s : Str} (h : plainStr s = true) : s.count '"' = 0 :=
  List.count_eq_zero.mpr (plainStr_not_mem h (by decide))

theorem plainStr_noBS {s : Str} (h : plainStr s = true) : noBS s = true := by
  simp only [plainStr, List.all_eq_true] at h
  simp only [noBS, List.all_eq_true]
  intro c hc
  have := goodStrChar_not_bs (plainChar_good (h c hc))
  simp [this]

theorem plainStr_noBracket {s : Str} (h : plainStr s = true) :
    s.all noBracket = true := by
  simp only [plainStr, List.all_eq_true] at h
  simp only [List.all_eq_true]
  exact fun c hc => plainChar_brackets (h c hc)

theorem kvsOfPairs_safe_plain : ∀ {kvs : List (Str × Str)},
    kvs.all (fun q => plainStr q.1 && plainStr q.2) = true →
    jsonSafeK (kvsOfPairs kvs) = true := by
  intro kvs
  induction kvs with
  | nil => intro _; rfl
  | cons a rest ih =>
    intro h
    simp only [List.all_cons, Bool.and_eq_true] at h
    obtain ⟨⟨h1, h2⟩, h3⟩ := h
    cases a with
    | mk k v =>
      simp [kvsOfPairs, jsonSafeK, jsonSafe, plainStr_good h1, plainStr_good h2, ih h3]

theorem serKVs_plain_noBracket : ∀ {kvs : List (Str × Str)},
    kvs.all (fun q => plainStr q.1 && plainStr q.2) = true →
    (serKVs (kvsOfPairs kvs)).all noBracket = true := by
  intro kvs
  induction kvs with
  | nil => intro _; rfl
  | cons a rest ih =>
    intro h
    simp only [List.all_cons, Bool.and_eq_true] at h
    obtain ⟨⟨h1, h2⟩, h3⟩ := h
    cases a with
    | mk k v =>
      cases rest with
      | nil =>
        simp only [kvsOfPairs, serKVs, serVal]
        simp [List.all_cons, List.all_append, plainStr_noBracket h1, plainStr_noBracket h2,
          noBracket]
      | cons b rest2 =>
        have hrec := ih h3
        cases b with
        | mk k2 v2 =>
          simp only [kvsOfPairs, serKVs, serVal] at hrec ⊢
          simp [List.all_cons, List.all_append, plainStr_noBracket h1, plainStr_noBracket h2,
            noBracket, hrec]

/-- The truncation scenario of claim C3: an object of complete members
cut off inside the string value of one further member, so the text ends
in a dangling string and carries an odd number of quotes. -/
def c3Text (kvs : List (Str × Str)) (k p : Str) : Str :=
  '{' :: (serKVs (kvsOfPairs kvs) ++ (if kvs.isEmpty then [] else [','])
    ++ ('"' :: k ++ '"' :: ':' :: '"' :: p))

/-- Claim C3 counterexample: two pure trailing truncations with odd
quote counts and no risks key on which the repair fails.  First, the
four-character text of an open brace, a quote and the letters a b (cut
inside the key, before its closing quote): the repair produces an object
member with a key and no value, which strict parsing rejects.  Second,
the text of an open brace, the quoted key a, a colon, a quote and the
letters b and open bracket (cut inside the string value): the naive
bracket stack counts the bracket inside the string literal and appends a
spurious array closer, which strict parsing rejects.  Both return the
failure marker instead of a valid structure. -/
theorem recover_marker_on_truncated_key :
    (parse_json_response ['{', '"', 'a', 'b'] = errMarker ∧
      (['{', '"', 'a', 'b'].count '"') % 2 = 1 ∧
      isSub risksPat ['{', '"', 'a', 'b'] = false ∧
      List.isPrefixOf ['{', '"', 'a', 'b'] ['{', '"', 'a', 'b', '"', ':', ' ', '1', '}'] = true ∧
      json_loads ['{', '"', 'a', 'b', '"', ':', ' ', '1', '}']
        = some (.obj (.cons ['a', 'b'] (.num 1) .nil))) ∧
    (parse_json_response ['{', '"', 'a', '"', ':', ' ', '"', 'b', '['] = errMarker ∧
      (['{', '"', 'a', '"', ':', ' ', '"', 'b', '['].count '"') % 2 = 1 ∧
      isSub risksPat ['{', '"', 'a', '"', ':', ' ', '"', 'b', '['] = false ∧
      List.isPrefixOf ['{', '"', 'a', '"', ':', ' ', '"', 'b', '[']
        ['{', '"', 'a', '"', ':', ' ', '"', 'b', '[', '1', ']', '"', '}'] = true ∧
      json_loads ['{', '"', 'a', '"', ':', ' ', '"', 'b', '[', '1', ']', '"', '}']
        = some (.obj (.cons ['a'] (.str ['b', '[', '1', ']']) .nil))) := by
  have h1 : pyReplace fenceJson7 [] ['{', '"', 'a', 'b'] = ['{', '"', 'a', 'b'] := by
    rw [show fenceJson7 = btick :: [btick, btick, 'j', 's', 'o', 'n'] from rfl]
    exact pyReplace_of_not_mem (by decide)
  have h2 : pyReplace fence3 [] ['{', '"', 'a', 'b'] = ['{', '"', 'a', 'b'] := by
    rw [show fence3 = btick :: [btick, btick] from rfl]
    exact pyReplace_of_not_mem (by decide)
  have h3 : pyReplace fenceJson7 [] ['{', '"', 'a', '"', ':', ' ', '"', 'b', '[']
      = ['{', '"', 'a', '"', ':', ' ', '"', 'b', '['] := by
    rw [show fenceJson7 = btick :: [btick, btick, 'j', 's', 'o', 'n'] from rfl]
    exact pyReplace_of_not_mem (by decide)
  have h4 : pyReplace fence3 [] ['{', '"', 'a', '"', ':', ' ', '"', 'b', '[']
      = ['{', '"', 'a', '"', ':', ' ', '"', 'b', '['] := by
    rw [show fence3 = btick :: [btick, btick] from rfl]
    exact pyReplace_of_not_mem (by decide)
  refine ⟨⟨?_, by decide, by decide, by decide, by rfl⟩,
    ⟨?_, by decide, by decide, by decide, by rfl⟩⟩
  · simp only [parse_json_response, h1, h2]
    rfl
  · simp only [parse_json_response, h3, h4]
    rfl

/-- Claim C3 (amended): when the truncation falls inside a string value
(not a key) and the keys and string contents are plain characters (in
particular free of the brace and bracket characters that the naive
bracket stack would miscount inside string literals), the generic repair
closes the dangling string and the open brace and returns the object
extended with the truncated member, not the failure marker. -/
theorem recover_closes_dangling_string
    (kvs : List (Str × Str)) (k p : Str)
    (hkvs : kvs.all (fun q => plainStr q.1 && plainStr q.2) = true)
    (hk : plainStr k = true) (hp : plainStr p = true)
    (hnorisks : isSub risksPat (c3Text kvs k p) = false) :
    parse_json_response (c3Text kvs k p) = .obj (kvsOfPairs (kvs ++ [(k, p)])) ∧
    (c3Text kvs k p).count '"' % 2 = 1 ∧
    Json.obj (kvsOfPairs (kvs ++ [(k, p)])) ≠ errMarker := by
  have hKsafe : jsonSafeK (kvsOfPairs kvs) = true := kvsOfPairs_safe_plain hkvs
  have hKclean : (serKVs (kvsOfPairs kvs)).all cleanChar = true := serKVs_cleanChars _ hKsafe
  have hKtick : btick ∉ serKVs (kvsOfPairs kvs) := cleanChars_no_tick hKclean
  have hKbs : noBS (serKVs (kvsOfPairs kvs)) = true := cleanChars_noBS hKclean
  have hKq : (serKVs (kvsOfPairs kvs)).count '"' % 2 = 0 := serKVs_quote_even _ hKsafe
  have hktick : btick ∉ k := plainStr_not_mem hk (by decide)
  have hptick : btick ∉ p := plainStr_not_mem hp (by decide)
  have hmid : btick ∉ (if kvs.isEmpty then ([] : Str) else [',']) := by
    split
    · exact List.not_mem_nil _
    · intro hm
      simp only [List.mem_singleton] at hm
      exact absurd hm (by decide)
  have htick : btick ∉ c3Text kvs k p := by
    simp +decide [c3Text, hKtick, hmid, hktick, hptick]
  have hhead : ∃ c t, c3Text kvs k p = c :: t ∧ pyws c = false := ⟨'{', _, rfl, by decide⟩
  have hlast : ∃ y b, c3Text kvs k p = y ++ [b] ∧ pyws b = false := by
    rcases List.eq_nil_or_concat p with hp0 | ⟨q, b, hqb⟩
    · refine ⟨'{' :: (serKVs (kvsOfPairs kvs) ++ (if kvs.isEmpty then [] else [','])
        ++ ('"' :: k ++ ['"', ':'])), '"', ?_, by decide⟩
      rw [hp0]
      simp [c3Text]
    · have hb : plainChar b = true := by
        simp only [plainStr, List.all_eq_true] at hp
        exact hp b (by rw [hqb]; simp)
      refine ⟨'{' :: (serKVs (kvsOfPairs kvs) ++ (if kvs.isEmpty then [] else [','])
        ++ ('"' :: k ++ '"' :: ':' :: '"' :: q)), b, ?_, plainChar_pyws hb⟩
      rw [hqb]
      simp [c3Text]
  have hclean := clean_unfenced htick hhead hlast
  have hmidq : (if kvs.isEmpty then ([] : Str) else [',']).count '"' = 0 := by
    split
    · rfl
    · decide
  have hcount : (c3Text kvs k p).count '"' % 2 = 1 := by
    simp +decide only [c3Text, List.count_cons, List.count_append, hmidq,
      plainStr_count_quote hk, plainStr_count_quote hp, if_true, if_false]
    omega
  have hmidbs : noBS (if kvs.isEmpty then ([] : Str) else [',']) = true := by
    split
    · rfl
    · decide
  have hbs : noBS (c3Text kvs k p) = true := by
    have hkbs := plainStr_noBS hk
    have hpbs := plainStr_noBS hp
    simp only [noBS] at hKbs hkbs hpbs hmidbs ⊢
    simp +decide [c3Text, List.all_cons, List.all_append, hKbs, hkbs, hpbs, hmidbs]
  have hloads : json_loads (c3Text kvs k p) = none := json_loads_none_of_odd hbs hcount
  have hrisk : riskRepairStep (c3Text kvs k p) = none := by
    simp only [riskRepairStep, hnorisks, Bool.false_eq_true, if_false]
  have hr1strip : pyRstrip (c3Text kvs k p ++ ['"']) = c3Text kvs k p ++ ['"'] :=
    pyRstrip_concat_false (by decide)
  have hr1comma : rstripComma (c3Text kvs k p ++ ['"']) = c3Text kvs k p ++ ['"'] :=
    rstripComma_concat_ne (by decide)
  have hmidnb : (if kvs.isEmpty then ([] : Str) else [',']).all noBracket = true := by
    split
    · rfl
    · decide
  have hclose : closeStack (c3Text kvs k p ++ ['"']) = ['}'] := by
    have hbody : ((serKVs (kvsOfPairs kvs) ++ (if kvs.isEmpty then [] else [','])
        ++ ('"' :: k ++ '"' :: ':' :: '"' :: p)) ++ ['"']).all noBracket = true := by
      simp +decide [List.all_append, List.all_cons, serKVs_plain_noBracket hkvs, hmidnb,
        plainStr_noBracket hk, plainStr_noBracket hp, noBracket]
    have hshape : c3Text kvs k p ++ ['"']
        = '{' :: ((serKVs (kvsOfPairs kvs) ++ (if kvs.isEmpty then [] else [','])
          ++ ('"' :: k ++ '"' :: ':' :: '"' :: p)) ++ ['"']) := by
      simp [c3Text]
    show closeStackAux (c3Text kvs k p ++ ['"']) [] = ['}']
    rw [hshape]
    simp +decide only [closeStackAux]
    exact closeStackAux_no_brackets hbody
  have hform : (c3Text kvs k p ++ ['"']) ++ ['}']
      = serVal (.obj (kvsOfPairs (kvs ++ [(k, p)]))) := by
    simp only [serVal, serKVs_snoc, c3Text]
    simp
  have hsafeJ : jsonSafe (.obj (kvsOfPairs (kvs ++ [(k, p)]))) = true := by
    simp only [jsonSafe]
    exact kvsOfPairs_safe_plain (by simp [List.all_append, List.all_cons, hkvs, hk, hp])
  have hfin : finishRepair (c3Text kvs k p) = .obj (kvsOfPairs (kvs ++ [(k, p)])) := by
    have hne0 : (c3Text kvs k p).count '"' % 2 ≠ 0 := by omega
    simp only [finishRepair, if_pos hne0]
    rw [hr1strip, hr1comma, hclose, hform, json_loads_ser hsafeJ]
  refine ⟨?_, hcount, ?_⟩
  · simp only [parse_json_response, hclean, hloads, hrisk, hfin]
  · intro heq
    simp only [errMarker, Json.obj.injEq] at heq
    cases kvs with
    | nil =>
      simp only [List.nil_append, kvsOfPairs, JsonKVs.cons.injEq, Json.str.injEq] at heq
      obtain ⟨_, hpe, _⟩ := heq
      rw [hpe] at hp
      exact absurd hp (by decide)
    | cons a rest =>
      cases a with
      | mk k1 v1 =>
        simp only [List.cons_append, kvsOfPairs, JsonKVs.cons.injEq] at heq
        have h3 := heq.2.2
        revert h3
        cases hrp : rest ++ [(k, p)] with
        | nil => exact absurd hrp (by simp)
        | cons b rest2 =>
          intro h3
          cases b with
          | mk bb cc =>
            have h4 : kvsOfPairs (rest ++ [(k, p)]) = JsonKVs.nil := h3
            rw [hrp] at h4
            simp [kvsOfPairs] at h4

/-- Claim C3 witness: the amended repair at the concrete truncated text
consisting of open brace, quoted key a, colon, quote, letter b. -/
theorem recover_closes_dangling_string_witness :
    ([] : List (Str × Str)).all (fun q => plainStr q.1 && plainStr q.2) = true ∧
    plainStr ['a'] = true ∧ plainStr ['b'] = true ∧
    isSub risksPat (c3Text [] ['a'] ['b']) = false ∧
    (parse_json_response (c3Text [] ['a'] ['b'])
        = .obj (kvsOfPairs ([] ++ [(['a'], ['b'])])) ∧
      (c3Text [] ['a'] ['b']).count '"' % 2 = 1 ∧
      Json.obj (kvsOfPairs ([] ++ [(['a'], ['b'])])) ≠ errMarker) := by
  have h1 : ([] : List (Str × Str)).all (fun q => plainStr q.1 && plainStr q.2) = true := rfl
  have h2 : plainStr ['a'] = true := by decide
  have h3 : plainStr ['b'] = true := by decide
  have h4 : isSub risksPat (c3Text [] ['a'] ['b']) = false := by
    simp +decide [c3Text, kvsOfPairs, serKVs, isSub, risksPat, List.isPrefixOf]
  exact ⟨h1, h2, h3, h4, recover_closes_dangling_string [] ['a'] ['b'] h1 h2 h3 h4⟩

/-! ## Claim C1: the risks walk-back repair -/

/-- Array of objects, the shape of the risks array in the scenarios. -/
def jlOfObjs : List JsonKVs → JsonList
  | [] => .nil
  | m :: rest => .cons (.obj m) (jlOfObjs rest)

/-- The truncation scenario of claim C1: an object holding a risks array
of complete object elements, cut off inside a string value of the next
element, right after that element's opening brace, key and colon. -/
def c1Text (vs : List JsonKVs) (k p : Str) : Str :=
  ('{' :: (risksPat ++ ':' :: '[' :: serList (jlOfObjs vs)))
    ++ (',' :: '{' :: '"' :: k ++ '"' :: ':' :: '"' :: p)

theorem jlOfObjs_safe : ∀ {vs : List JsonKVs},
    vs.all (fun m => jsonSafeK m) = true → jsonSafeL (jlOfObjs vs) = true := by
  intro vs
  induction vs with
  | nil => intro _; rfl
  | cons m rest ih =>
    intro h
    simp only [List.all_cons, Bool.and_eq_true] at h
    simp [jlOfObjs, jsonSafeL, jsonSafe, h.1, ih h.2]

theorem serList_objs_concat : ∀ (vs : List JsonKVs), vs ≠ [] →
    ∃ Q, serList (jlOfObjs vs) = Q ++ ['}'] := by
  intro vs
  induction vs with
  | nil => intro h; exact absurd rfl h
  | cons m rest ih =>
    intro _
    cases rest with
    | nil =>
      refine ⟨'{' :: serKVs m, ?_⟩
      simp [jlOfObjs, serList, serVal]
    | cons m2 rest2 =>
      obtain ⟨Q2, hQ2⟩ := ih (by simp)
      refine ⟨serVal (.obj m) ++ ',' :: Q2, ?_⟩
      simp only [jlOfObjs, serList] at hQ2 ⊢
      rw [hQ2]
      simp

/-- Claim C1 counterexample: the text reading open brace, quoted risks
key, colon, then an array holding one complete object and a second
object truncated inside a nested object value.  The claim demands that
the repair keep exactly the one complete element, but the generic
bracket-closing repair completes the truncated second element and keeps
it, returning a two-element risks array. -/
theorem recover_fabricates_on_nested_truncation :
    parse_json_response
        ['{', '"', 'r', 'i', 's', 'k', 's', '"', ':', ' ', '[', '{', '"', 'a', '"', ':',
          ' ', '1', '}', ',', ' ', '{', '"', 'b', '"', ':', ' ', '{', '"', 'c', '"', ':',
          ' ', '2', '}']
      = .obj (.cons "risks".toList
          (.arr (.cons (.obj (.cons ['a'] (.num 1) .nil))
            (.cons (.obj (.cons ['b'] (.obj (.cons ['c'] (.num 2) .nil)) .nil)) .nil)))
          .nil) ∧
    Json.arr (.cons (.obj (.cons ['a'] (.num 1) .nil))
        (.cons (.obj (.cons ['b'] (.obj (.cons ['c'] (.num 2) .nil)) .nil)) .nil))
      ≠ Json.arr (.cons (.obj (.cons ['a'] (.num 1) .nil)) .nil) := by
  have h1 : pyReplace fenceJson7 []
      ['{', '"', 'r', 'i', 's', 'k', 's', '"', ':', ' ', '[', '{', '"', 'a', '"', ':',
        ' ', '1', '}', ',', ' ', '{', '"', 'b', '"', ':', ' ', '{', '"', 'c', '"', ':',
        ' ', '2', '}']
      = ['{', '"', 'r', 'i', 's', 'k', 's', '"', ':', ' ', '[', '{', '"', 'a', '"', ':',
        ' ', '1', '}', ',', ' ', '{', '"', 'b', '"', ':', ' ', '{', '"', 'c', '"', ':',
        ' ', '2', '}'] := by
    rw [show fenceJson7 = btick :: [btick, btick, 'j', 's', 'o', 'n'] from rfl]
    exact pyReplace_of_not_mem (by decide)
  have h2 : pyReplace fence3 []
      ['{', '"', 'r', 'i', 's', 'k', 's', '"', ':', ' ', '[', '{', '"', 'a', '"', ':',
        ' ', '1', '}', ',', ' ', '{', '"', 'b', '"', ':', ' ', '{', '"', 'c', '"', ':',
        ' ', '2', '}']
      = ['{', '"', 'r', 'i', 's', 'k', 's', '"', ':', ' ', '[', '{', '"', 'a', '"', ':',
        ' ', '1', '}', ',', ' ', '{', '"', 'b', '"', ':', ' ', '{', '"', 'c', '"', ':',
        ' ', '2', '}'] := by
    rw [show fence3 = btick :: [btick, btick] from rfl]
    exact pyReplace_of_not_mem (by decide)
  refine ⟨?_, by simp⟩
  simp only [parse_json_response, h1, h2]
  rfl

/-- Claim C1 (amended): when the truncated trailing element is cut
inside a plain string value before any nested closing brace, the
walk-back repair truncates at the last closing brace of the complete
elements and returns exactly those elements, discarding the incomplete
one and fabricating nothing. -/
theorem recover_risks_walkback
    (vs : List JsonKVs) (k p : Str)
    (hvs : vs ≠ [])
    (hsafe : vs.all (fun m => jsonSafeK m) = true)
    (hk : tokStr k = true) (hp : tokStr p = true) :
    parse_json_response (c1Text vs k p)
      = .obj (.cons "risks".toList (.arr (jlOfObjs vs)) .nil) ∧
    (c1Text vs k p).count '"' % 2 = 1 := by
  have hLsafe : jsonSafeL (jlOfObjs vs) = true := jlOfObjs_safe hsafe
  have hJsafe : jsonSafe (.obj (.cons "risks".toList (.arr (jlOfObjs vs)) .nil)) = true := by
    simp +decide [jsonSafe, jsonSafeK, goodStr, goodStrChar, btick, hLsafe]
  have hLclean : (serList (jlOfObjs vs)).all cleanChar = true := serList_cleanChars _ hLsafe
  have hLtick : btick ∉ serList (jlOfObjs vs) := cleanChars_no_tick hLclean
  have hLbs : noBS (serList (jlOfObjs vs)) = true := cleanChars_noBS hLclean
  have hLq : (serList (jlOfObjs vs)).count '"' % 2 = 0 := serList_quote_even _ hLsafe
  have hktick : btick ∉ k := tokStr_not_mem hk (by decide)
  have hptick : btick ∉ p := tokStr_not_mem hp (by decide)
  obtain ⟨Q, hQ⟩ := serList_objs_concat vs hvs
  have htick : btick ∉ c1Text vs k p := by
    simp +decide [c1Text, risksPat, hLtick, hktick, hptick]
  have hhead : ∃ c t, c1Text vs k p = c :: t ∧ pyws c = false := ⟨'{', _, rfl, by decide⟩
  have hlast : ∃ y b, c1Text vs k p = y ++ [b] ∧ pyws b = false := by
    rcases List.eq_nil_or_concat p with hp0 | ⟨q, b, hqb⟩
    · refine ⟨('{' :: (risksPat ++ ':' :: '[' :: serList (jlOfObjs vs)))
        ++ (',' :: '{' :: '"' :: k ++ ['"', ':']), '"', ?_, by decide⟩
      rw [hp0]
      simp [c1Text]
    · have hb : tokChar b = true := by
        simp only [tokStr, List.all_eq_true] at hp
        exact hp b (by rw [hqb]; simp)
      refine ⟨('{' :: (risksPat ++ ':' :: '[' :: serList (jlOfObjs vs)))
        ++ (',' :: '{' :: '"' :: k ++ '"' :: ':' :: '"' :: q), b, ?_, tokChar_pyws hb⟩
      rw [hqb]
      simp [c1Text]
  have hclean := clean_unfenced htick hhead hlast
  have hcount : (c1Text vs k p).count '"' % 2 = 1 := by
    simp +decide only [c1Text, risksPat, List.count_cons, List.count_append,
      tokStr_count_quote hk, tokStr_count_quote hp, if_true, if_false]
    omega
  have hbs : noBS (c1Text vs k p) = true := by
    have hkbs := tokStr_noBS hk
    have hpbs := tokStr_noBS hp
    simp only [noBS] at hLbs hkbs hpbs ⊢
    simp +decide [c1Text, risksPat, List.all_cons, List.all_append, hLbs, hkbs, hpbs]
  have hloads : json_loads (c1Text vs k p) = none := json_loads_none_of_odd hbs hcount
  have hrisks : isSub risksPat (c1Text vs k p) = true := by
    have h2 : isSub risksPat ((risksPat ++ ':' :: '[' :: serList (jlOfObjs vs))
        ++ (',' :: '{' :: '"' :: k ++ '"' :: ':' :: '"' :: p)) = true := by
      apply isSub_of_isPrefixOf
      rw [List.append_assoc]
      exact isPrefixOf_append_self
    rw [show c1Text vs k p = '{' :: ((risksPat ++ ':' :: '[' :: serList (jlOfObjs vs))
      ++ (',' :: '{' :: '"' :: k ++ '"' :: ':' :: '"' :: p)) from rfl]
    show (risksPat.isPrefixOf ('{' :: ((risksPat ++ ':' :: '[' :: serList (jlOfObjs vs))
        ++ (',' :: '{' :: '"' :: k ++ '"' :: ':' :: '"' :: p)))
      || isSub risksPat ((risksPat ++ ':' :: '[' :: serList (jlOfObjs vs))
        ++ (',' :: '{' :: '"' :: k ++ '"' :: ':' :: '"' :: p))) = true
    rw [h2, Bool.or_true]
  have hA : ('{' :: (risksPat ++ ':' :: '[' :: serList (jlOfObjs vs)))
      = ('{' :: (risksPat ++ ':' :: '[' :: Q)) ++ ['}'] := by
    rw [hQ]
    simp
  have hk2 : '}' ∉ k := tokStr_not_mem hk (by decide)
  have hp2 : '}' ∉ p := tokStr_not_mem hp (by decide)
  have htail_nom : '}' ∉ (',' :: '{' :: '"' :: k ++ '"' :: ':' :: '"' :: p) := by
    simp +decide [hk2, hp2]
  have hrl : rlast '}' (c1Text vs k p)
      = some ('{' :: (risksPat ++ ':' :: '[' :: Q)).length := by
    show rlast '}' (('{' :: (risksPat ++ ':' :: '[' :: serList (jlOfObjs vs)))
      ++ (',' :: '{' :: '"' :: k ++ '"' :: ':' :: '"' :: p)) = _
    rw [rlast_append_none (rlast_eq_none_of_not_mem htail_nom), hA, rlast_concat]
  have hAlen : ('{' :: (risksPat ++ ':' :: '[' :: serList (jlOfObjs vs))).length
      = ('{' :: (risksPat ++ ':' :: '[' :: Q)).length + 1 := by
    rw [hA]
    simp only [List.length_cons, List.length_append, List.length_nil]
  have hlc_pos : 0 < ('{' :: (risksPat ++ ':' :: '[' :: Q)).length := by simp
  have hdrop : (c1Text vs k p).drop (('{' :: (risksPat ++ ':' :: '[' :: Q)).length + 1)
      = (',' :: '{' :: '"' :: k ++ '"' :: ':' :: '"' :: p) := by
    show (('{' :: (risksPat ++ ':' :: '[' :: serList (jlOfObjs vs)))
      ++ (',' :: '{' :: '"' :: k ++ '"' :: ':' :: '"' :: p)).drop _ = _
    rw [← hAlen, List.drop_left]
  have hdq : (',' :: '{' :: '"' :: k ++ '"' :: ':' :: '"' :: p).count '"' % 2 ≠ 0 := by
    simp +decide only [List.count_cons, List.count_append,
      tokStr_count_quote hk, tokStr_count_quote hp, if_true, if_false]
  have htake : (c1Text vs k p).take (('{' :: (risksPat ++ ':' :: '[' :: Q)).length + 1)
      = ('{' :: (risksPat ++ ':' :: '[' :: serList (jlOfObjs vs))) := by
    show (('{' :: (risksPat ++ ':' :: '[' :: serList (jlOfObjs vs)))
      ++ (',' :: '{' :: '"' :: k ++ '"' :: ':' :: '"' :: p)).take _ = _
    rw [← hAlen, List.take_left]
  have hrk : "risks".toList = ['r', 'i', 's', 'k', 's'] := rfl
  have hserJ : ('{' :: (risksPat ++ ':' :: '[' :: serList (jlOfObjs vs))) ++ [']', '}']
      = serVal (.obj (.cons "risks".toList (.arr (jlOfObjs vs)) .nil)) := by
    simp [serVal, serKVs, risksPat, hrk]
  have hcand : rstripComma (pyRstrip ((c1Text vs k p).take
        (('{' :: (risksPat ++ ':' :: '[' :: Q)).length + 1))) ++ [']', '}']
      = serVal (.obj (.cons "risks".toList (.arr (jlOfObjs vs)) .nil)) := by
    rw [htake, hA, pyRstrip_concat_false (by decide),
      rstripComma_concat_ne (by decide), ← hA, hserJ]
  have hwb : walkBack (c1Text vs k p) ('{' :: (risksPat ++ ':' :: '[' :: Q)).length
      = some (serVal (.obj (.cons "risks".toList (.arr (jlOfObjs vs)) .nil))) := by
    rw [walkBack]
    rw [if_neg (show ¬('{' :: (risksPat ++ ':' :: '[' :: Q)).length = 0 from by omega)]
    simp only [hcand, json_loads_ser hJsafe, Option.isSome_some, if_true]
  have hstep : riskRepairStep (c1Text vs k p)
      = walkBack (c1Text vs k p) ('{' :: (risksPat ++ ':' :: '[' :: Q)).length := by
    simp only [riskRepairStep, hrisks, hrl, hdrop, if_true]
    rw [if_pos hlc_pos, if_pos (Or.inl hdq)]
  refine ⟨?_, hcount⟩
  simp only [parse_json_response, hclean, hloads, hstep, hwb,
    json_loads_ser hJsafe]

/-- Claim C1 witness: the amended walk-back at a one-element risks array
truncated inside the second element's first string value. -/
theorem recover_risks_walkback_witness :
    ([JsonKVs.cons ['a'] (.num 1) .nil] : List JsonKVs) ≠ [] ∧
    ([JsonKVs.cons ['a'] (.num 1) .nil] : List JsonKVs).all (fun m => jsonSafeK m) = true ∧
    tokStr ['b'] = true ∧ tokStr ['x'] = true ∧
    (parse_json_response (c1Text [JsonKVs.cons ['a'] (.num 1) .nil] ['b'] ['x'])
        = .obj (.cons "risks".toList
            (.arr (jlOfObjs [JsonKVs.cons ['a'] (.num 1) .nil])) .nil) ∧
      (c1Text [JsonKVs.cons ['a'] (.num 1) .nil] ['b'] ['x']).count '"' % 2 = 1) := by
  have h1 : ([JsonKVs.cons ['a'] (.num 1) .nil] : List JsonKVs) ≠ [] := by simp
  have h2 : ([JsonKVs.cons ['a'] (.num 1) .nil] : List JsonKVs).all
      (fun m => jsonSafeK m) = true := by
    simp +decide [jsonSafeK, jsonSafe, goodStr, goodStrChar, btick]
  have h3 : tokStr ['b'] = true := by decide
  have h4 : tokStr ['x'] = true := by decide
  exact ⟨h1, h2, h3, h4,
    recover_risks_walkback [JsonKVs.cons ['a'] (.num 1) .nil] ['b'] ['x'] h1 h2 h3 h4⟩

end S2P
